import Mathlib

set_option maxRecDepth 100000

/-!
Verification development for the TinyTailor batch document-rewriting tool.

The TypeScript sources are shallowly embedded as executable Lean functions.
Text is modelled as a list of characters, one entry per code point, which
coincides with JavaScript string indexing for the
basic-multilingual-plane inputs involved.  External collaborators
(filesystem, image codec, node path module, fast-glob, the cheerio HTML
parser) are modelled as explicit environment records or abstract
parameters; every string and scanning algorithm of the repository itself
is translated directly from the source.
-/

namespace TinyTailor

/-- Character-list view of a string literal. -/
def str (s : String) : List Char := s.data

/-! ### SharpProcessor (src/modules/image-optimizer/sharp-processor.ts)

The sharp codec itself is external: its outputs (the re-encoded PNG
buffer length, the resized or converted file records) enter as abstract
parameters.  The filesystem is a finite association list from paths to
file records.  The decision logic is translated line by line. -/

structure PngOptions where
  sizeThreshold : Nat
  pixelsThreshold : Nat
  compressionLevel : Nat
  effort : Nat
  adaptiveFiltering : Bool
deriving DecidableEq

structure PngResult where
  compressed : Bool
  originalSize : Nat
  newSize : Nat
deriving DecidableEq

/-- Character-wise lower casing of a string, the effect of the
JavaScript toLowerCase call on the metadata format names involved. -/
def lowerStr (s : String) : String := String.mk (s.data.map Char.toLower)

/-- SharpProcessor.recompressPng (sharp-processor.ts lines 27-74).
Inputs: the stat size of the file, the metadata format and dimensions,
the length of the buffer the sharp png re-encode would produce (codec
abstracted), and the options.  Returns the reported result together with
a flag telling whether the file was written back. -/
def recompressPng (size : Nat) (format : String) (width height : Nat)
    (recompressedLen : Nat) (o : PngOptions) : PngResult × Bool :=
  if lowerStr format ≠ "png" then (⟨false, size, size⟩, false)
  else
    let pixels := width * height
    if size < o.sizeThreshold ∧ pixels < o.pixelsThreshold then
      (⟨false, size, size⟩, false)
    else if recompressedLen + 1024 < size then
      (⟨true, size, recompressedLen⟩, true)
    else (⟨false, size, size⟩, false)

structure FileRec where
  size : Nat
  width : Nat
deriving DecidableEq

/-- Filesystem model: association list from absolute paths to file records. -/
abbrev FSModel := List (String × FileRec)

/-- Key lookup in an insertion-ordered association list; this models
JavaScript object property access and map lookup. -/
def getKey {β : Type} : List (String × β) → String → Option β
  | [], _ => none
  | kv :: rest, k => if kv.1 == k then some kv.2 else getKey rest k

def fsLookup (fs : FSModel) (p : String) : Option FileRec := getKey fs p

structure GenResult where
  created : Bool
  originalSize : Nat
  newSize : Nat
deriving DecidableEq

/-- SharpProcessor.downscale (sharp-processor.ts lines 76-123).
Returns the updated filesystem, the reported result, and the number of
file-producing operations performed (copy or resize-encode); the source
checks target existence first and returns immediately when present.
The source guards the verbatim-copy branch with a truthiness test on the
metadata width, hence the width nonzero condition. -/
def downscale (fs : FSModel) (srcPath destPath : String) (targetWidth : Nat)
    (resizedRec : FileRec) : FSModel × GenResult × Nat :=
  match fsLookup fs destPath with
  | some r => (fs, ⟨false, 0, r.size⟩, 0)
  | none =>
    let src := (fsLookup fs srcPath).getD ⟨0, 0⟩
    if src.width ≠ 0 ∧ src.width ≤ targetWidth then
      ((destPath, src) :: fs, ⟨true, src.size, src.size⟩, 1)
    else
      ((destPath, resizedRec) :: fs, ⟨true, src.size, resizedRec.size⟩, 1)

/-- SharpProcessor.convertToWebp (sharp-processor.ts lines 125-146). -/
def convertToWebp (fs : FSModel) (srcPath destPath : String)
    (webpRec : FileRec) : FSModel × GenResult × Nat :=
  match fsLookup fs destPath with
  | some r => (fs, ⟨false, 0, r.size⟩, 0)
  | none =>
    let src := (fsLookup fs srcPath).getD ⟨0, 0⟩
    ((destPath, webpRec) :: fs, ⟨true, src.size, webpRec.size⟩, 1)

/-! ### PathResolver.resolveImagePath (src/utils/path-resolver.ts lines 17-57)

The node path module, fs-extra existence checks and the fast-glob search
are external; they enter through an environment record.  The control
flow, the order of the attempts and the early return for slash-prefixed
references are translated from the source. -/

structure ResolverEnv where
  fsExists : String → Bool
  joinPub : String → String
  resolveDoc : String → String
  globFirstRaster : String → Option String

/-- The normalisation imgRef.replace applied before the glob search:
an optional leading dot, then any run of slashes, is removed. -/
def stripDotSlashL (l : List Char) : List Char :=
  (if l.head? = some '.' then l.drop 1 else l).dropWhile (fun c => c = '/')

def resolveImagePath (env : ResolverEnv) (imgRef : String) : Option String :=
  if imgRef = "" then none
  else if imgRef.data.head? = some '/' then
    let resolvedPath := env.joinPub imgRef
    if env.fsExists resolvedPath then some resolvedPath else none
  else
    let byRelative := env.resolveDoc imgRef
    if env.fsExists byRelative then some byRelative
    else
      let fromPublic := env.joinPub imgRef
      if env.fsExists fromPublic then some fromPublic
      else env.globFirstRaster (String.mk (stripDotSlashL imgRef.data))

/-! ### ConfigManager.mergeConfigs (src/config (ConfigManager) lines 415-435)

Configuration values are modelled as a small JSON-like type: primitives,
arrays and objects with insertion-ordered keys, mirroring JavaScript
objects. -/

inductive CVal where
  | prim : String → CVal
  | arr : List CVal → CVal
  | obj : List (String × CVal) → CVal

/-- Typeof check of the source for the user value: a non-null,
non-array object. -/
def isObjV : CVal → Bool
  | .obj _ => true
  | _ => false

/-- Check applied to the default value: truthy and of object type, which
in JavaScript includes arrays. -/
def isObjLike : CVal → Bool
  | .obj _ => true
  | .arr _ => true
  | _ => false

/-- Entries seen by a JavaScript object spread: object entries, or
index-keyed entries for an array. -/
def entriesOf : CVal → List (String × CVal)
  | .obj e => e
  | .arr l => ((List.range l.length).zip l).map (fun p => (toString p.1, p.2))
  | .prim _ => []

/-- JavaScript spread of two entry lists: the keys of the first,
overridden by the second where present, followed by the new keys of the
second in order. -/
def spreadEntries (d u : List (String × CVal)) : List (String × CVal) :=
  (d.map (fun kv => (kv.1, (getKey u kv.1).getD kv.2))) ++
    u.filter (fun kv => !(d.any (fun dv => dv.1 == kv.1)))

/-- Entry update applied when assigning to an existing key. -/
def updEntry (k : String) (v : CVal) (kv : String × CVal) : String × CVal :=
  if kv.1 == k then (k, v) else kv

/-- JavaScript property assignment on a copied object: update an
existing key in place, otherwise append it. -/
def setKey (l : List (String × CVal)) (k : String) (v : CVal) :
    List (String × CVal) :=
  if l.any (fun kv => kv.1 == k) then l.map (updEntry k v)
  else l ++ [(k, v)]

/-- ConfigManager.mergeConfigs: start from the defaults, walk the user
keys in order; when the user value is a plain object and the default
value is object-like, assign the one-level spread of the two, otherwise
assign the user value wholesale. -/
def mergeConfigs (defaultConfig userConfig : List (String × CVal)) :
    List (String × CVal) :=
  userConfig.foldl (fun res kv =>
    match getKey defaultConfig kv.1 with
    | some dv =>
      if isObjV kv.2 && isObjLike dv then
        setKey res kv.1 (CVal.obj (spreadEntries (entriesOf dv) (entriesOf kv.2)))
      else setKey res kv.1 kv.2
    | none => setKey res kv.1 kv.2) defaultConfig

/-- The value mergeConfigs assigns for one user key, factored out of
the branches of the fold body: a one-level spread when the user value
is a plain object and the default value is object-like, otherwise the
user value wholesale. -/
def mergedVal (d : List (String × CVal)) (kv : String × CVal) : CVal :=
  match getKey d kv.1 with
  | some dv =>
    if isObjV kv.2 && isObjLike dv then
      CVal.obj (spreadEntries (entriesOf dv) (entriesOf kv.2))
    else kv.2
  | none => kv.2

/-- Modelled from the spec: the deep merge the specification describes,
in which object-valued keys merge recursively at every nesting depth and
arrays and primitives replace wholesale.  Comparison definition only;
the fuel argument bounds the recursion depth. -/
def specDeepMerge : Nat → List (String × CVal) → List (String × CVal) →
    List (String × CVal)
  | 0, d, _ => d
  | fuel+1, d, u =>
    u.foldl (fun res kv =>
      match getKey d kv.1, kv.2 with
      | some (CVal.obj de), CVal.obj ue =>
        setKey res kv.1 (CVal.obj (specDeepMerge fuel de ue))
      | _, _ => setKey res kv.1 kv.2) d

/-- Field access inside a configuration object value. -/
def lookupIn (v : CVal) (k : String) : Option CVal :=
  match v with
  | .obj e => getKey e k
  | _ => none

/-! ### Text processing: shared character classes and scanning helpers

These model the character classes of the JavaScript regexes involved
(whitespace class, word class, digit class) and case-insensitive
matching with the simple case folding JavaScript applies to the Latin
and Cyrillic letters appearing in the configuration. -/

/-- JavaScript regex whitespace class, restricted to the code points
that can arise in the inputs of this development. -/
def isWsChar (c : Char) : Bool :=
  c = ' ' || c = '\t' || c = '\n' || c = '\r' || c = '\x0b' || c = '\x0c' ||
    c = ' '

/-- JavaScript regex word class (ASCII letters, digits, underscore). -/
def isWordChar (c : Char) : Bool :=
  ('a' ≤ c && c ≤ 'z') || ('A' ≤ c && c ≤ 'Z') || ('0' ≤ c && c ≤ '9') || c = '_'

def isDigitChar (c : Char) : Bool := '0' ≤ c && c ≤ '9'

/-- Simple case folding for the letters involved: ASCII A-Z and
Cyrillic А-Я and Ё fold to lower case, as under a JavaScript
case-insensitive regex. -/
def foldChar (c : Char) : Char :=
  let n := c.toNat
  if 65 ≤ n ∧ n ≤ 90 then Char.ofNat (n + 32)
  else if 1040 ≤ n ∧ n ≤ 1071 then Char.ofNat (n + 32)
  else if n = 1025 then Char.ofNat (1105)
  else c

/-- Case-insensitive literal-pattern check at the head of a list. -/
def ciStarts : List Char → List Char → Bool
  | [], _ => true
  | _ :: _, [] => false
  | p :: ps, c :: cs => (foldChar p = foldChar c) && ciStarts ps cs

/-- Case-sensitive literal-pattern check at the head of a list. -/
def litStarts : List Char → List Char → Bool
  | [], _ => true
  | _ :: _, [] => false
  | p :: ps, c :: cs => (p = c) && litStarts ps cs

/-- Index of the first occurrence of a literal pattern. -/
def findLit (pat : List Char) : List Char → Option Nat
  | [] => if litStarts pat [] then some 0 else none
  | c :: rest =>
    if litStarts pat (c :: rest) then some 0
    else
      match findLit pat rest with
      | some i => some (i + 1)
      | none => none

/-- Split at the first greater-than sign: returns the characters before
it and the characters after it.  This is the effect of a greedy
bracket-free run followed by the closing sign in the tag regexes. -/
def splitAtGt : List Char → Option (List Char × List Char)
  | [] => none
  | c :: rest =>
    if c = '>' then some ([], rest)
    else
      match splitAtGt rest with
      | some p => some (c :: p.1, p.2)
      | none => none

/-! ### HangingPrepositionsProcessor
(src/modules/text-processor/hanging-prepositions.ts) -/

/-- Alternating decomposition produced by
HangingPrepositionsProcessor.splitContentByTags (lines 121-157). -/
inductive HPart where
  | text : List Char → HPart
  | tag : List Char → HPart
deriving DecidableEq

def HPart.content : HPart → List Char
  | .text c => c
  | .tag c => c

def HPart.isText : HPart → Bool
  | .text _ => true
  | .tag _ => false

namespace Hanging

/-- Worker for the tag split: scan for generic tag spans, flushing
accumulated text before each tag; text without a closing sign after an
opening sign is plain text.  The fuel only bounds the iteration count;
the wrapper supplies enough for the whole input, and the fuel-exhausted
fallback emits the remaining characters as text so that concatenating
the parts always restores the input. -/
def splitTagsGo : Nat → List Char → List Char → List HPart
  | 0, cs, acc =>
    if acc.reverse ++ cs = [] then [] else [HPart.text (acc.reverse ++ cs)]
  | fuel+1, cs, acc =>
    match cs with
    | [] => if acc = [] then [] else [HPart.text acc.reverse]
    | c :: rest =>
      if c = '<' then
        match splitAtGt rest with
        | some (inner, after) =>
          (if acc = [] then [] else [HPart.text acc.reverse]) ++
            (HPart.tag ('<' :: (inner ++ ['>'])) :: splitTagsGo fuel after [])
        | none => [HPart.text (acc.reverse ++ c :: rest)]
      else splitTagsGo fuel rest (c :: acc)

/-- HangingPrepositionsProcessor.splitContentByTags. -/
def splitContentByTags (cs : List Char) : List HPart :=
  splitTagsGo (cs.length + 1) cs []

end Hanging

/-- The non-breaking marker inserted by the hanging-preposition fix. -/
def nbsp : List Char := str ("&nbsp;")

/-- Attempt, at the current position, the token-and-trailing part of the
regex of processPreposition: the token case-insensitively, then a
nonempty whitespace run, then one following non-whitespace character.
Returns the matched token text (original casing), the whitespace run,
the following character and the remainder after it. -/
def tryPrepAt (prep cs : List Char) :
    Option (List Char × List Char × Char × List Char) :=
  if ciStarts prep cs then
    let rest := cs.drop prep.length
    match rest.takeWhile isWsChar, rest.dropWhile isWsChar with
    | w :: wtail, n :: rest2 => some (cs.take prep.length, w :: wtail, n, rest2)
    | _, _ => none
  else none

/-- Whitespace-run rewriting of the replacement callback (lines
99-107): a run containing a line break keeps everything up to the final
run of spaces and tabs and replaces only that final run by the marker
(leaving the run unchanged when it ends in a line break); a run without
line breaks is replaced by the marker wholesale. -/
def processWs (ws : List Char) : List Char :=
  if ws.contains '\n' then
    let trail := (ws.reverse.takeWhile (fun c => c = ' ' || c = '\t')).length
    if trail = 0 then ws else ws.take (ws.length - trail) ++ nbsp
  else nbsp

/-- Left-to-right non-overlapping scan of the global replace in
processPreposition (lines 90-109).  A match consists of a prefix
(start of text, or one whitespace character), the token, a whitespace
run and one following non-whitespace character, all consumed; scanning
resumes after the consumed character.  The flag records whether the
start-of-text alternative is still available. -/
def prepScan (prep : List Char) : Nat → Bool → List Char → List Char × Nat
  | 0, _, cs => (cs, 0)
  | fuel+1, atStart, cs =>
    match (if atStart then tryPrepAt prep cs else none) with
    | some (m, ws, n, rest) =>
      let r := prepScan prep fuel false rest
      (m ++ (processWs ws ++ n :: r.1), r.2 + 1)
    | none =>
      match cs with
      | [] => ([], 0)
      | c :: rest =>
        if isWsChar c then
          match tryPrepAt prep rest with
          | some (m, ws, n, rest2) =>
            let r := prepScan prep fuel false rest2
            (c :: (m ++ (processWs ws ++ n :: r.1)), r.2 + 1)
          | none =>
            let r := prepScan prep fuel false rest
            (c :: r.1, r.2)
        else
          let r := prepScan prep fuel false rest
          (c :: r.1, r.2)

/-- Per-part action of processPreposition: text parts are scanned,
tag parts pass through unchanged. -/
def hTransform (prep : List Char) (p : HPart) : List Char × Nat :=
  match p with
  | .text c => prepScan prep (c.length + 1) true c
  | .tag c => (c, 0)

/-- HangingPrepositionsProcessor.processPreposition (lines 82-119):
split into parts, substitute in text parts only, concatenate, and
report the number of matches. -/
def processPreposition (content prep : List Char) : List Char × Nat :=
  let rs := (Hanging.splitContentByTags content).map (hTransform prep)
  (rs.foldr (fun r acc => r.1 ++ acc) [],
   rs.foldr (fun r acc => r.2 + acc) 0)

/-- Concatenation of the decomposition parts. -/
def joinHParts (ps : List HPart) : List Char :=
  ps.foldr (fun p acc => p.content ++ acc) []

/-- Part-level view of one token pass: text parts are rewritten by the
scan, tag parts are kept verbatim. -/
def hMapPart (prep : List Char) (p : HPart) : HPart :=
  match p with
  | .text c => .text (prepScan prep (c.length + 1) true c).1
  | .tag c => .tag c

/-- The per-token loop of processText (lines 31-35): each token is a
fresh full pass over the accumulated text. -/
def processPrepositions (preps : List (List Char)) (content : List Char) :
    List Char × Nat :=
  preps.foldl (fun acc prep =>
    let r := processPreposition acc.1 prep
    (r.1, acc.2 + r.2)) (content, 0)

/-- Modelled from the claim words, for comparison only: the number of
occurrences of the token preceded by start-of-text or whitespace and
followed by one or more whitespace characters and then a non-whitespace
character. -/
def qualAt (content prep : List Char) (i : Nat) : Bool :=
  (i == 0 || isWsChar (((content.drop (i - 1)).headD ('x')))) &&
  ciStarts prep (content.drop i) &&
  (let rest := (content.drop i).drop prep.length
   !(rest.takeWhile isWsChar).isEmpty && !(rest.dropWhile isWsChar).isEmpty)

/-- Modelled from the claim words: total count of qualifying
occurrences, for comparison with the count the code reports. -/
def specQualCount (content prep : List Char) : Nat :=
  (List.range content.length).countP (qualAt content prep)

/-- First occurrence search of the template regex of the Vue handling
(processVueFile): the first template open tag, its attribute run up to
the first closing sign, then the nearest template close tag.  Returns
the document prefix up to and including the open tag, the template
interior, and the suffix from the close tag on. -/
def templateSplit (cs : List Char) :
    Option (List Char × List Char × List Char) :=
  match findLit (str ("<template")) cs with
  | none => none
  | some p =>
    match splitAtGt (cs.drop (p + 9)) with
    | none => none
    | some (attrs, afterOpen) =>
      match findLit (str ("</template>")) afterOpen with
      | none => none
      | some q =>
        some (cs.take (p + 9) ++ (attrs ++ ['>']), afterOpen.take q,
          afterOpen.drop q)

namespace Hanging

/-- HangingPrepositionsProcessor.processVueFile (lines 44-80): apply
the token passes to the interior of the first template section only,
splicing the processed interior back when at least one replacement was
made; without a template section the content is returned unchanged. -/
def processVueFile (preps : List (List Char)) (content : List Char) :
    List Char × Nat :=
  match templateSplit content with
  | none => (content, 0)
  | some (pre, inner, post) =>
    let r := processPrepositions preps inner
    if r.2 > 0 then (pre ++ (r.1 ++ post), r.2) else (content, r.2)

end Hanging

/-! ### SuperscriptReplacer
(src/modules/text-processor/superscript-replacer.ts) -/

/-- Decomposition produced by SuperscriptReplacer.splitContentByTags:
text, tag, and text lying between a sup open tag and its close tag. -/
inductive SPart where
  | text : List Char → SPart
  | tag : List Char → SPart
  | supText : List Char → SPart
deriving DecidableEq

def SPart.content : SPart → List Char
  | .text c => c
  | .tag c => c
  | .supText c => c

def SPart.isText : SPart → Bool
  | .text _ => true
  | _ => false

/-- Sup open tag test applied to a captured tag string: an occurrence
of a sup tag head, at a word boundary, with a closing sign after it. -/
def supOpenHere (l : List Char) : Bool :=
  ciStarts (str ("<sup")) l &&
    (match l.drop 4 with
     | [] => false
     | d :: _ => !(isWordChar d) && (splitAtGt (l.drop 4)).isSome)

def hasSupOpen : List Char → Bool
  | [] => false
  | c :: rest => supOpenHere (c :: rest) || hasSupOpen rest

def hasSupClose : List Char → Bool
  | [] => false
  | c :: rest => ciStarts (str ("</sup>")) (c :: rest) || hasSupClose rest

namespace Superscr

/-- Worker for the sup-aware tag split (superscript-replacer.ts lines
71-124): like the hanging-preposition splitter but tracking whether the
scan is between a sup open tag and its close tag; interior text is
emitted as supText and excluded from substitution. -/
def splitTagsGo : Nat → List Char → List Char → Bool → List SPart
  | 0, cs, acc, inSup =>
    if acc.reverse ++ cs = [] then []
    else [(if inSup then SPart.supText else SPart.text) (acc.reverse ++ cs)]
  | fuel+1, cs, acc, inSup =>
    match cs with
    | [] =>
      if acc = [] then []
      else [(if inSup then SPart.supText else SPart.text) acc.reverse]
    | c :: rest =>
      if c = '<' then
        match splitAtGt rest with
        | some (inner, after) =>
          let tg := '<' :: (inner ++ ['>'])
          let newSup :=
            if hasSupOpen tg then true
            else if hasSupClose tg then false
            else inSup
          (if acc = [] then []
           else [(if inSup then SPart.supText else SPart.text) acc.reverse]) ++
            (SPart.tag tg :: splitTagsGo fuel after [] newSup)
        | none =>
          [(if inSup then SPart.supText else SPart.text) (acc.reverse ++ c :: rest)]
      else splitTagsGo fuel rest (c :: acc) inSup

/-- SuperscriptReplacer.splitContentByTags. -/
def splitContentByTags (cs : List Char) : List SPart :=
  splitTagsGo (cs.length + 1) cs [] false

end Superscr

def punctChar (c : Char) : Bool :=
  c = '.' || c = ',' || c = ';' || c = ':' || c = '!' || c = '?'

/-- Lookahead of the superscript regex: whitespace, end of the text
span, or sentence punctuation. -/
def lookOk : List Char → Bool
  | [] => true
  | c :: _ => isWsChar c || punctChar c

/-- Token attempt of the superscript regex at the current position: the
token case-insensitively, with the lookahead satisfied after it; the
lookahead character is not consumed. -/
def tryTokAt (tok cs : List Char) : Option (List Char) :=
  if ciStarts tok cs && lookOk (cs.drop tok.length) then
    some (cs.drop tok.length)
  else none

/-- Left-to-right non-overlapping scan of the global replace in
performReplacement (superscript-replacer.ts lines 49-63): a match is a
prefix (start of text, one whitespace character, or one digit), the
token, and the satisfied lookahead; the matched token is replaced by
the configured replacement, the prefix character is kept, and the
lookahead character is not consumed. -/
def supScan (tok rep : List Char) : Nat → Bool → List Char → List Char × Nat
  | 0, _, cs => (cs, 0)
  | fuel+1, atStart, cs =>
    match (if atStart then tryTokAt tok cs else none) with
    | some rest =>
      let r := supScan tok rep fuel false rest
      (rep ++ r.1, r.2 + 1)
    | none =>
      match cs with
      | [] => ([], 0)
      | c :: rest =>
        if isWsChar c || isDigitChar c then
          match tryTokAt tok rest with
          | some rest2 =>
            let r := supScan tok rep fuel false rest2
            (c :: (rep ++ r.1), r.2 + 1)
          | none =>
            let r := supScan tok rep fuel false rest
            (c :: r.1, r.2)
        else
          let r := supScan tok rep fuel false rest
          (c :: r.1, r.2)

/-- Concatenation of the sup-aware decomposition parts. -/
def joinSParts (ps : List SPart) : List Char :=
  ps.foldr (fun p acc => p.content ++ acc) []

/-- Part-level view of one replacement pass: text parts are rewritten
by the scan, tag parts and sup-interior text are kept verbatim. -/
def sMapPart (tok rep : List Char) (p : SPart) : SPart :=
  match p with
  | .text c => .text (supScan tok rep (c.length + 1) true c).1
  | .tag c => .tag c
  | .supText c => .supText c

/-- Per-part action of performReplacement: only text parts are
substituted; tag parts and sup-interior text pass through unchanged. -/
def sTransform (tok rep : List Char) (p : SPart) : List Char × Nat :=
  match p with
  | .text c => supScan tok rep (c.length + 1) true c
  | .tag c => (c, 0)
  | .supText c => (c, 0)

/-- SuperscriptReplacer.performReplacement (lines 38-69). -/
def performReplacement (content tok rep : List Char) : List Char × Nat :=
  let rs := (Superscr.splitContentByTags content).map (sTransform tok rep)
  (rs.foldr (fun r acc => r.1 ++ acc) [],
   rs.foldr (fun r acc => r.2 + acc) 0)

/-- The per-pair loop of processText: each pair is an independent full
pass over the accumulated text, in configured order. -/
def performReplacementList (reps : List (List Char × List Char))
    (content : List Char) : List Char × Nat :=
  reps.foldl (fun acc pr =>
    let r := performReplacement acc.1 pr.1 pr.2
    (r.1, acc.2 + r.2)) (content, 0)

namespace Superscr

/-- SuperscriptReplacer.processVueFile (lines 173-209): identical
template-splicing scheme to the hanging-preposition processor. -/
def processVueFile (reps : List (List Char × List Char))
    (content : List Char) : List Char × Nat :=
  match templateSplit content with
  | none => (content, 0)
  | some (pre, inner, post) =>
    let r := performReplacementList reps inner
    if r.2 > 0 then (pre ++ (r.1 ++ post), r.2) else (content, r.2)

end Superscr

/-! ### CssWebPProcessor
(src/modules/css-optimizer/css-webp-processor.ts)

Path resolution, existence checks and WebP generation are external and
enter through an environment record; the URL filtering, the
background-image declaration matching, the rule-context brace scanning
and the string surgery are translated from the source. -/

def litEndsWith (pat l : List Char) : Bool := litStarts pat.reverse l.reverse

def litContains : List Char → List Char → Bool
  | pat, [] => litStarts pat []
  | pat, c :: rest => litStarts pat (c :: rest) || litContains pat rest

/-- CssWebPProcessor.shouldSkipUrl (lines 87-98). -/
def shouldSkipUrl (url : List Char) : Bool :=
  litStarts (str ("data:")) url ||
  litStarts (str ("http://")) url ||
  litStarts (str ("https://")) url ||
  litStarts (str ("//")) url ||
  litEndsWith (str (".webp")) url ||
  litContains (str ("gradient")) url ||
  litStarts (str ("#")) url

/-- Attempt of the background-image declaration regex at the current
position: the property name case-insensitively, optional whitespace, a
colon, optional whitespace, a url open, an optional quote, a nonempty
body free of quotes and closing parentheses, an optional quote, and the
closing parenthesis.  Returns the match length and the captured url. -/
def bgMatchAt (l : List Char) : Option (Nat × List Char) :=
  if ciStarts (str ("background-image")) l then
    let r1 := l.drop 16
    let w1 := (r1.takeWhile isWsChar).length
    match r1.drop w1 with
    | ':' :: r3 =>
      let w2 := (r3.takeWhile isWsChar).length
      let r4 := r3.drop w2
      if ciStarts (str ("url(")) r4 then
        let r5 := r4.drop 4
        let q1 := if r5.headD ('x') = '\'' || r5.headD ('x') = '"' then 1 else 0
        let r6 := r5.drop q1
        let body := r6.takeWhile (fun c => !(c = '\'' || c = '"' || c = ')'))
        if body.isEmpty then none
        else
          let r7 := r6.drop body.length
          let q2 := if r7.headD ('x') = '\'' || r7.headD ('x') = '"' then 1 else 0
          match r7.drop q2 with
          | ')' :: _ =>
            some (16 + w1 + 1 + w2 + 4 + q1 + body.length + q2 + 1, body)
          | _ => none
      else none
    | _ => none
  else none

/-- The matchAll scan for background-image declarations: left-to-right,
non-overlapping; each entry carries the full matched text and the
captured url. -/
def bgScanGo : Nat → List Char → List (List Char × List Char)
  | 0, _ => []
  | fuel+1, cs =>
    match cs with
    | [] => []
    | c :: rest =>
      match bgMatchAt (c :: rest) with
      | some (len, url) =>
        ((c :: rest).take len, url) :: bgScanGo fuel ((c :: rest).drop len)
      | none => bgScanGo fuel rest

def bgMatches (css : List Char) : List (List Char × List Char) :=
  bgScanGo (css.length + 1) css

/-- JavaScript string trim. -/
def trimL (l : List Char) : List Char :=
  ((l.dropWhile isWsChar).reverse.dropWhile isWsChar).reverse

/-- First-occurrence string replace of JavaScript: no occurrence leaves
the text unchanged; the empty pattern matches at position zero. -/
def replaceFirst (l pat sub : List Char) : List Char :=
  match findLit pat l with
  | none => l
  | some i => l.take i ++ (sub ++ l.drop (i + pat.length))

/-- Backward half of CssWebPProcessor.findRuleContext (lines 183-201):
walk the characters before the declaration from right to left with a
brace counter; a closing brace seen before any opening brace ends the
walk just after itself, otherwise the start stays at the declaration
index.  The first argument of the walk is the reversed prefix. -/
def backScanGo (ruleIndex : Nat) : List Char → Nat → Int → Bool → Nat
  | [], _, _, _ => ruleIndex
  | c :: rest, i, bc, inRule =>
    if c = '\x7d' then
      if !inRule then i + 1
      else backScanGo ruleIndex rest (i - 1) (bc + 1) inRule
    else if c = '\x7b' then
      if bc = 0 then backScanGo ruleIndex rest (i - 1) bc true
      else backScanGo ruleIndex rest (i - 1) (bc - 1) inRule
    else backScanGo ruleIndex rest (i - 1) bc inRule

/-- Forward half of findRuleContext (lines 204-226): walk from the
declaration looking for the closing brace of the rule; the end is set
only when a closing brace is met with a zero counter while inside a
rule, otherwise it stays at the declaration index. -/
def fwdScanGo (ruleIndex : Nat) : List Char → Nat → Int → Bool → Nat
  | [], _, _, _ => ruleIndex
  | c :: rest, i, bc, inRule =>
    if c = '\x7b' then
      if !inRule then fwdScanGo ruleIndex rest (i + 1) bc true
      else fwdScanGo ruleIndex rest (i + 1) (bc + 1) inRule
    else if c = '\x7d' then
      if bc = 0 && inRule then i + 1
      else fwdScanGo ruleIndex rest (i + 1) (bc - 1) inRule
    else fwdScanGo ruleIndex rest (i + 1) bc inRule

/-- CssWebPProcessor.findRuleContext (lines 172-238): locate the
declaration, run both brace walks, and return the trimmed substring
between them together with the selector captured before the first
opening brace. -/
def findRuleContext (css bgRule : List Char) :
    Option (List Char × List Char) :=
  match findLit bgRule css with
  | none => none
  | some ruleIndex =>
    let selStart :=
      backScanGo ruleIndex ((css.take ruleIndex).reverse) (ruleIndex - 1) 0 false
    let ruleEnd := fwdScanGo ruleIndex (css.drop ruleIndex) ruleIndex 0 false
    let fullRule := trimL ((css.drop selStart).take (ruleEnd - selStart))
    let selRun := fullRule.takeWhile (fun c => c ≠ '\x7b')
    let selector :=
      if selRun.length > 0 ∧ selRun.length < fullRule.length then trimL selRun
      else []
    some (fullRule, selector)

/-- CssWebPProcessor.insertWebPRule (lines 159-170). -/
def insertWebPRule (css origRule webpRule : List Char) : List Char :=
  match findRuleContext css origRule with
  | some rc => replaceFirst css rc.1 webpRule
  | none => replaceFirst css origRule webpRule

def webpTestURI : List Char :=
  str ("data:image/webp;base64,UklGRhoAAABXRUJQVlA4TA0AAAAvAAAAEAcQERGIiP4HAA==")

/-- CssWebPProcessor.createWebPRule (lines 134-157): the first
occurrence of the original url inside the matched declaration is
swapped for the WebP url, and the two feature-detection blocks are
assembled around the two declarations. -/
def createWebPRule (origRule origUrl webpUrl : List Char) : List Char :=
  let webpRule := replaceFirst origRule origUrl webpUrl
  str ("@supports (background-image: url('") ++ webpTestURI ++
    str ("')) \x7b\n  ") ++ webpRule ++
    str ("\n\x7d\n\n/* Fallback for browsers that don't support WebP */\n@supports not (background-image: url('") ++
    webpTestURI ++ str ("')) \x7b\n  ") ++ origRule ++ str ("\n\x7d")

structure CssEnv where
  resolvePath : List Char → List Char
  isProcessableImage : List Char → Bool
  generateWebPVersion : List Char → Option (List Char)
  relativeWebpUrl : List Char → List Char

structure CssResult where
  content : List Char
  changed : Bool
  imagesProcessed : Nat
  webpRulesAdded : Nat
deriving DecidableEq

/-- CssWebPProcessor.processBackgroundImages (lines 24-85): matches are
computed once on the original text; each non-skipped, resolvable,
processable declaration with an available WebP derivative rewrites the
accumulated content through insertWebPRule. -/
def processBackgroundImages (env : CssEnv) (css : List Char) : CssResult :=
  (bgMatches css).foldl (fun res m =>
    if shouldSkipUrl m.2 then res
    else
      let imagePath := env.resolvePath m.2
      if !(env.isProcessableImage imagePath) then res
      else
        match env.generateWebPVersion imagePath with
        | none => res
        | some webpPath =>
          let webpUrl := env.relativeWebpUrl webpPath
          let webpRule := createWebPRule m.1 m.2 webpUrl
          { content := insertWebPRule res.content m.1 webpRule,
            changed := true,
            imagesProcessed := res.imagesProcessed + 1,
            webpRulesAdded := res.webpRulesAdded + 1 })
    { content := css, changed := false, imagesProcessed := 0, webpRulesAdded := 0 }

/-! ### ImageOptimizer region scanner
(src/modules/image-optimizer/index.ts, findPictureBlocks lines 73-97
and findStandaloneImages lines 313-347)

The scanners work directly on the document text.  A match of the
picture open tag is the tag name case-insensitively at a word boundary
followed by a bracket-free attribute run and the closing sign; the
close tag allows whitespace before its closing sign; an image tag is
matched like the open tag.  Spans are pairs of start and end offsets. -/

def openPicMatch (l : List Char) : Option Nat :=
  if ciStarts (str ("<picture")) l then
    match l.drop 8 with
    | [] => none
    | d :: _ =>
      if isWordChar d then none
      else (splitAtGt (l.drop 8)).map (fun p => 8 + p.1.length + 1)
  else none

def closePicMatch (l : List Char) : Option Nat :=
  if ciStarts (str ("</picture")) l then
    let rest := l.drop 9
    let w := (rest.takeWhile isWsChar).length
    match rest.drop w with
    | '>' :: _ => some (9 + w + 1)
    | _ => none
  else none

def imgMatch (l : List Char) : Option Nat :=
  if ciStarts (str ("<img")) l then
    match l.drop 4 with
    | [] => none
    | d :: _ =>
      if isWordChar d then none
      else (splitAtGt (l.drop 4)).map (fun p => 4 + p.1.length + 1)
  else none

/-- All positions at which a matcher succeeds, with the resulting
spans, in ascending start order. -/
def allMatches (m : List Char → Option Nat) (doc : List Char) :
    List (Nat × Nat) :=
  (List.range doc.length).filterMap
    (fun s => (m (doc.drop s)).map (fun k => (s, s + k)))

/-- The global regex scan: leftmost match, then continue from its end;
this is the match collection of a JavaScript global exec or match
loop. -/
def gscanGo (m : List Char → Option Nat) (doc : List Char) :
    Nat → Nat → List (Nat × Nat)
  | 0, _ => []
  | fuel+1, p =>
    if p < doc.length then
      match m (doc.drop p) with
      | some len => (p, p + len) :: gscanGo m doc fuel (p + max len 1)
      | none => gscanGo m doc fuel (p + 1)
    else []

def gscan (m : List Char → Option Nat) (doc : List Char) : List (Nat × Nat) :=
  gscanGo m doc (doc.length + 1) 0

/-- First match of a matcher at or after a position; this is the
minimal-length behaviour of the lazy interior of the picture block
regex looking for the nearest close tag. -/
def firstMatchFrom (m : List Char → Option Nat) (doc : List Char) :
    Nat → Nat → Option (Nat × Nat)
  | 0, _ => none
  | fuel+1, p =>
    if p < doc.length then
      match m (doc.drop p) with
      | some len => some (p, p + len)
      | none => firstMatchFrom m doc fuel (p + 1)
    else none

/-- Scan of ImageOptimizer.findPictureBlocks: at each position, an open
tag followed somewhere by a close tag yields the block from the open
start to the close end, and the scan continues after the block. -/
def findBlocksGo (doc : List Char) : Nat → Nat → List (Nat × Nat)
  | 0, _ => []
  | fuel+1, p =>
    if p < doc.length then
      match openPicMatch (doc.drop p) with
      | some olen =>
        match firstMatchFrom closePicMatch doc (doc.length + 1) (p + olen) with
        | some c => (p, c.2) :: findBlocksGo doc fuel c.2
        | none => findBlocksGo doc fuel (p + 1)
      | none => findBlocksGo doc fuel (p + 1)
    else []

def findPictureBlocks (doc : List Char) : List (Nat × Nat) :=
  findBlocksGo doc (doc.length + 1) 0

/-- Count of open picture tags in the text before a position, as
obtained by the global match on the sliced prefix. -/
def openCountBefore (doc : List Char) (s : Nat) : Nat :=
  (gscan openPicMatch (doc.take s)).length

def closeCountBefore (doc : List Char) (s : Nat) : Nat :=
  (gscan closePicMatch (doc.take s)).length

/-- ImageOptimizer.findStandaloneImages: the image tags of the document
kept exactly when the open and close picture tag counts before their
start coincide. -/
def findStandaloneImages (doc : List Char) : List (Nat × Nat) :=
  (gscan imgMatch doc).filter
    (fun se => openCountBefore doc se.1 == closeCountBefore doc se.1)

/-- Alternation check: opens and closes pair up in document order with
non-overlapping spans, each pair after the given lower bound and each
later pair after the previous close end. -/
def altScan : Nat → List (Nat × Nat) → List (Nat × Nat) → Bool
  | _, [], [] => true
  | b, o :: os, c :: cs =>
    decide (b ≤ o.1) && decide (o.2 ≤ c.1) && altScan c.2 os cs
  | _, _, _ => false

def chainDisjB : List (Nat × Nat) → Bool
  | [] => true
  | [_] => true
  | a :: b :: rest => decide (a.2 ≤ b.1) && chainDisjB (b :: rest)

def disjointFrom (xs ys : List (Nat × Nat)) : Bool :=
  xs.all (fun x => ys.all (fun y => decide (x.2 ≤ y.1) || decide (y.2 ≤ x.1)))

/-- Well-formedness of a document for the region scanners: the picture
open and close tag occurrences alternate, paired in order with
non-overlapping spans, and image tag occurrences neither overlap each
other nor any picture tag occurrence. -/
def wellFormedPic (doc : List Char) : Bool :=
  altScan 0 (allMatches openPicMatch doc) (allMatches closePicMatch doc) &&
  chainDisjB (allMatches imgMatch doc) &&
  disjointFrom (allMatches imgMatch doc)
    (allMatches openPicMatch doc ++ allMatches closePicMatch doc)

/-! ### ImageOptimizer source-element logic
(src/modules/image-optimizer/index.ts lines 26-71, 99-311, 349-487)

The cheerio HTML parse of a picture interior is modelled by the list of
its source elements with the attributes the code inspects; the
filesystem, the codec and path resolution are summarised per region by
an optional environment: its presence means the first image reference
of the region resolved to a supported raster file, and it carries the
values that are stable across runs (configured media query, derivative
mime type, the width-based downscale decision, and the formatted srcset
strings).  The splicing of the new elements before the first existing
source or image corresponds to prepending them to the element list. -/

structure SourceEl where
  type : List Char
  srcset : List Char
  media : List Char
  marker : Bool
deriving DecidableEq

structure ImgEnv where
  mobileMedia : List Char
  origMime : List Char
  needDownscale : Bool
  srcsetMobWebp : List Char
  srcsetMobOrig : List Char
  srcsetWebp : List Char
deriving DecidableEq

/-- ImageOptimizer.hasSourceCheerio (lines 263-277): the found flag set
by the element walk is an existence check. -/
def hasSourceCheerio (sources : List SourceEl) (p : SourceEl → Bool) : Bool :=
  sources.any p

def mobWebpSource (e : ImgEnv) : SourceEl :=
  ⟨str ("image/webp"), e.srcsetMobWebp, e.mobileMedia, true⟩

def mobOrigSource (e : ImgEnv) : SourceEl :=
  ⟨e.origMime, e.srcsetMobOrig, e.mobileMedia, true⟩

def desktopWebpSource (e : ImgEnv) : SourceEl :=
  ⟨str ("image/webp"), e.srcsetWebp, [], true⟩

/-- ImageOptimizer.buildSourceElements (lines 226-261): each derivative
category is added only when no source with that mime type (and, for
mobile categories, the configured media query; for the desktop
category, an empty media attribute) exists in the region. -/
def buildSourceElements (e : ImgEnv) (sources : List SourceEl) :
    List SourceEl :=
  (if e.needDownscale then
    (if !(hasSourceCheerio sources (fun s =>
        s.type == str ("image/webp") && s.media == e.mobileMedia)) then
      [mobWebpSource e] else []) ++
    (if !(hasSourceCheerio sources (fun s =>
        s.type == e.origMime && s.media == e.mobileMedia)) then
      [mobOrigSource e] else [])
  else []) ++
  (if !(hasSourceCheerio sources (fun s =>
      s.type == str ("image/webp") && s.media.isEmpty)) then
    [desktopWebpSource e] else [])

/-- ImageOptimizer.processPictureFragment (lines 99-224) at the element
level: an unresolvable or non-raster region is left untouched; with no
missing category the region is left untouched; otherwise the missing
sources are inserted before the existing content. -/
def processPictureFragment (env : Option ImgEnv) (sources : List SourceEl) :
    Option (List SourceEl) :=
  match env with
  | none => none
  | some e =>
    let adds := buildSourceElements e sources
    if adds.isEmpty then none else some (adds ++ sources)

/-- ImageOptimizer.convertImgToPicture (lines 349-487) at the element
level: a resolvable standalone image is promoted to a picture whose
sources are produced unconditionally. -/
def convertImgToPicture (env : Option ImgEnv) : Option (List SourceEl) :=
  match env with
  | none => none
  | some e =>
    some ((if e.needDownscale then [mobWebpSource e, mobOrigSource e]
           else []) ++ [desktopWebpSource e])

/-- A rewritable region of a document: a picture block with its source
elements, or a standalone image; each carries its resolution
environment, which is deterministic across runs because recompression
preserves pixel dimensions and derivative generation is keyed on
existing paths. -/
inductive DocItem where
  | pic : Option ImgEnv → List SourceEl → DocItem
  | looseImg : Option ImgEnv → DocItem
deriving DecidableEq

def processRegionItem : DocItem → DocItem
  | .pic env sources => .pic env ((processPictureFragment env sources).getD sources)
  | .looseImg env =>
    match convertImgToPicture env with
    | some sources => .pic env sources
    | none => .looseImg env

/-- ImageOptimizer.processGenericRegion (lines 37-71) at the region
level: picture blocks are updated in place and resolvable standalone
images are promoted to picture blocks. -/
def processGenericRegion (doc : List DocItem) : List DocItem :=
  doc.map processRegionItem

/-! ## Concrete instances used by counterexamples and witnesses -/

/-- Environment with a document-relative image that resolution could
find, while the slash-prefixed reference misses the public root. -/
def envC3 : ResolverEnv where
  fsExists := fun p => p == "/docs/x.png"
  joinPub := fun r => ("/pub") ++ r
  resolveDoc := fun r => ("/docs") ++ r
  globFirstRaster := fun _ => none

/-- Defaults fragment with a nested group inside a top-level group. -/
def dEx : List (String × CVal) :=
  [("imageOptimization", CVal.obj
     [("pngRecompress", CVal.obj
        [("enabled", CVal.prim ("true")), ("effort", CVal.prim ("9"))]),
      ("jpgQuality", CVal.prim ("78"))])]

/-- User fragment setting one sub-key of the nested group only. -/
def uEx : List (String × CVal) :=
  [("imageOptimization", CVal.obj
     [("pngRecompress", CVal.obj [("effort", CVal.prim ("5"))])])]

/-- A flat CSS rule containing the background-image declaration of the
specification example. -/
def heroCss : List Char :=
  str (".hero \x7b background-image: url('images/hero.jpg'); width: 100%; \x7d")

def heroDecl : List Char := str ("background-image: url('images/hero.jpg')")

/-- Environment in which the example image resolves, is processable,
and has a WebP derivative available. -/
def cssEnvC4 : CssEnv where
  resolvePath := fun u => str ("/pub/") ++ u
  isProcessableImage := fun _ => true
  generateWebPVersion := fun p => some p
  relativeWebpUrl := fun _ => str ("images/hero.webp")

/-- Three-level field access into a merged configuration. -/
def lookupPath3 (l : List (String × CVal)) (k1 k2 k3 : String) : Option CVal :=
  (getKey l k1).bind (fun v => (lookupIn v k2).bind (fun w => lookupIn w k3))

/-! ## Lemmas -/

theorem getKey_append_left {β : Type} (k : String) (l l2 : List (String × β))
    (b : β) (h : getKey l k = some b) :
    getKey (l ++ l2) k = some b := by
  induction l with
  | nil => simp [getKey] at h
  | cons kv rest ih =>
    simp only [getKey, List.cons_append] at h ⊢
    cases hbeq : (kv.1 == k) with
    | true => simpa [hbeq] using h
    | false =>
      rw [hbeq] at h
      simpa [hbeq] using ih (by simpa using h)

theorem getKey_append_right {β : Type} (k : String) (l l2 : List (String × β))
    (h : getKey l k = none) :
    getKey (l ++ l2) k = getKey l2 k := by
  induction l with
  | nil => simp [getKey]
  | cons kv rest ih =>
    simp only [getKey, List.cons_append] at h ⊢
    cases hbeq : (kv.1 == k) with
    | true => rw [hbeq] at h; simp at h
    | false =>
      rw [hbeq] at h
      simpa [hbeq] using ih (by simpa using h)

theorem updEntry_pos (k : String) (v : CVal) (kv : String × CVal)
    (h : (kv.1 == k) = true) : updEntry k v kv = (k, v) := by
  simp [updEntry, h]

theorem updEntry_neg (k : String) (v : CVal) (kv : String × CVal)
    (h : (kv.1 == k) = false) : updEntry k v kv = kv := by
  simp [updEntry, h]

theorem getKey_map_upd (k : String) (v : CVal) :
    ∀ l : List (String × CVal),
      getKey (l.map (updEntry k v)) k = (getKey l k).map (fun _ => v)
  | [] => by simp [getKey]
  | kv :: rest => by
    cases hbeq : (kv.1 == k) with
    | true =>
      simp only [List.map_cons, updEntry_pos k v kv hbeq, getKey, hbeq,
        beq_self_eq_true, if_true]
      rfl
    | false =>
      simp only [List.map_cons, updEntry_neg k v kv hbeq, getKey, hbeq,
        Bool.false_eq_true, if_false]
      exact getKey_map_upd k v rest

theorem getKey_map_upd_ne (k k' : String) (v : CVal) (h : k' ≠ k) :
    ∀ l : List (String × CVal),
      getKey (l.map (updEntry k v)) k' = getKey l k'
  | [] => by simp [getKey]
  | kv :: rest => by
    cases hbeq : (kv.1 == k) with
    | true =>
      have hne : (k == k') = false := by
        simp only [beq_eq_false_iff_ne]
        exact fun he => h he.symm
      have hne2 : (kv.1 == k') = false := by
        rw [show kv.1 = k by simpa using hbeq]
        exact hne
      simp only [List.map_cons, updEntry_pos k v kv hbeq, getKey, hne, hne2,
        Bool.false_eq_true, if_false]
      exact getKey_map_upd_ne k k' v h rest
    | false =>
      cases hbeq2 : (kv.1 == k') with
      | true =>
        simp only [List.map_cons, updEntry_neg k v kv hbeq, getKey, hbeq2,
          if_true]
      | false =>
        simp only [List.map_cons, updEntry_neg k v kv hbeq, getKey, hbeq2,
          Bool.false_eq_true, if_false]
        exact getKey_map_upd_ne k k' v h rest

theorem getKey_of_any {β : Type} (k : String) (l : List (String × β))
    (h : l.any (fun kv => kv.1 == k) = true) :
    ∃ b, getKey l k = some b := by
  induction l with
  | nil => simp at h
  | cons kv rest ih =>
    cases hbeq : (kv.1 == k) with
    | true => exact ⟨kv.2, by simp [getKey, hbeq]⟩
    | false =>
      simp only [List.any_cons, hbeq, Bool.false_or] at h
      obtain ⟨b, hb⟩ := ih h
      exact ⟨b, by simp [getKey, hbeq, hb]⟩

theorem getKey_of_not_any {β : Type} (k : String) (l : List (String × β))
    (h : l.any (fun kv => kv.1 == k) = false) :
    getKey l k = none := by
  induction l with
  | nil => simp [getKey]
  | cons kv rest ih =>
    cases hbeq : (kv.1 == k) with
    | true => simp [hbeq] at h
    | false =>
      simp only [List.any_cons, hbeq, Bool.false_or] at h
      simp [getKey, hbeq, ih h]

theorem getKey_setKey_self (l : List (String × CVal)) (k : String) (v : CVal) :
    getKey (setKey l k v) k = some v := by
  unfold setKey
  split
  case isTrue h =>
    obtain ⟨b, hb⟩ := getKey_of_any k l h
    rw [getKey_map_upd, hb]
    rfl
  case isFalse h =>
    rw [Bool.not_eq_true] at h
    rw [getKey_append_right k l _ (getKey_of_not_any k l h)]
    simp [getKey]

theorem getKey_setKey_ne (l : List (String × CVal)) (k k' : String) (v : CVal)
    (h : k' ≠ k) : getKey (setKey l k v) k' = getKey l k' := by
  unfold setKey
  split
  case isTrue _ => exact getKey_map_upd_ne k k' v h l
  case isFalse _ =>
    cases hl : getKey l k' with
    | some b => exact getKey_append_left k' l _ b hl
    | none =>
      rw [getKey_append_right k' l _ hl]
      have hne : (k == k') = false := by
        simp only [beq_eq_false_iff_ne]
        exact fun he => h he.symm
      simp [getKey, hne]

/-! ## Claim theorems -/

/-- Claim C6: a PNG under both recompression thresholds is left
untouched with equal reported sizes and no write; a PNG at or over
either threshold is re-encoded, and the result is written back exactly
when it is smaller than the original by more than the 1024-byte slack
margin, otherwise the file is left untouched. -/
theorem C6_png_recompression_policy
    (size width height recompressedLen : Nat) (o : PngOptions)
    (format : String) (hpng : lowerStr format = "png") :
    (size < o.sizeThreshold → width * height < o.pixelsThreshold →
      recompressPng size format width height recompressedLen o =
        (⟨false, size, size⟩, false)) ∧
    (o.sizeThreshold ≤ size ∨ o.pixelsThreshold ≤ width * height →
      ((recompressPng size format width height recompressedLen o).2 = true ↔
         recompressedLen + 1024 < size) ∧
      (recompressedLen + 1024 < size →
        recompressPng size format width height recompressedLen o =
          (⟨true, size, recompressedLen⟩, true)) ∧
      (¬ recompressedLen + 1024 < size →
        recompressPng size format width height recompressedLen o =
          (⟨false, size, size⟩, false))) := by
  unfold recompressPng
  rw [hpng]
  constructor
  · intro h1 h2
    simp [h1, h2]
  · intro hover
    have hcond : ¬ (size < o.sizeThreshold ∧ width * height < o.pixelsThreshold) := by
      rcases hover with h | h
      · exact fun hc => absurd h (by omega)
      · exact fun hc => absurd h (by omega)
    refine ⟨?_, ?_, ?_⟩
    · by_cases hs : recompressedLen + 1024 < size <;> simp [hcond, hs]
    · intro hs; simp [hcond, hs]
    · intro hs; simp [hcond, hs]

theorem C6_png_recompression_policy_witness :
    (recompressPng 100 ("png") 10 10 50 ⟨1000, 1000, 9, 9, true⟩ =
      (⟨false, 100, 100⟩, false)) ∧
    (recompressPng 5000 ("png") 10 10 50 ⟨1000, 1000, 9, 9, true⟩ =
      (⟨true, 5000, 50⟩, true)) ∧
    (recompressPng 5000 ("png") 10 10 4500 ⟨1000, 1000, 9, 9, true⟩ =
      (⟨false, 5000, 5000⟩, false)) := by
  have h1 := C6_png_recompression_policy 100 10 10 50 ⟨1000, 1000, 9, 9, true⟩
    ("png") (by decide)
  have h2 := C6_png_recompression_policy 5000 10 10 50 ⟨1000, 1000, 9, 9, true⟩
    ("png") (by decide)
  have h3 := C6_png_recompression_policy 5000 10 10 4500 ⟨1000, 1000, 9, 9, true⟩
    ("png") (by decide)
  exact ⟨h1.1 (by decide) (by decide),
    (h2.2 (Or.inl (by decide))).2.1 (by decide),
    (h3.2 (Or.inl (by decide))).2.2 (by decide)⟩

/-- Claim C7: both derivative operations return immediately with a
not-created result carrying the existing size when the target exists;
after a first call the target exists, so a second call with the same
target changes nothing, performs no codec work, and across the two
calls the codec runs at most once. -/
theorem C7_derivative_generation_idempotent
    (fs : FSModel) (src dest : String) (tw : Nat) (rr wr : FileRec) :
    (∀ r, fsLookup fs dest = some r →
      downscale fs src dest tw rr = (fs, ⟨false, 0, r.size⟩, 0) ∧
      convertToWebp fs src dest wr = (fs, ⟨false, 0, r.size⟩, 0)) ∧
    ((downscale (downscale fs src dest tw rr).1 src dest tw rr).1 =
        (downscale fs src dest tw rr).1 ∧
     (downscale (downscale fs src dest tw rr).1 src dest tw rr).2.1.created = false ∧
     (downscale (downscale fs src dest tw rr).1 src dest tw rr).2.2 = 0 ∧
     (downscale fs src dest tw rr).2.2 +
       (downscale (downscale fs src dest tw rr).1 src dest tw rr).2.2 ≤ 1) ∧
    ((convertToWebp (convertToWebp fs src dest wr).1 src dest wr).1 =
        (convertToWebp fs src dest wr).1 ∧
     (convertToWebp (convertToWebp fs src dest wr).1 src dest wr).2.1.created = false ∧
     (convertToWebp (convertToWebp fs src dest wr).1 src dest wr).2.2 = 0 ∧
     (convertToWebp fs src dest wr).2.2 +
       (convertToWebp (convertToWebp fs src dest wr).1 src dest wr).2.2 ≤ 1) := by
  refine ⟨?_, ?_, ?_⟩
  · intro r hr
    constructor <;> simp [downscale, convertToWebp, hr]
  · cases hd : fsLookup fs dest with
    | some r => simp [downscale, hd]
    | none =>
      have hself : ∀ (x : FileRec), fsLookup ((dest, x) :: fs) dest = some x := by
        intro x; simp [fsLookup, getKey]
      by_cases hw : ((fsLookup fs src).getD ⟨0, 0⟩).width ≠ 0 ∧
          ((fsLookup fs src).getD ⟨0, 0⟩).width ≤ tw
      · simp [downscale, hd, hw, hself]
      · simp [downscale, hd, hw, hself]
  · cases hd : fsLookup fs dest with
    | some r => simp [convertToWebp, hd]
    | none =>
      have hself : fsLookup ((dest, wr) :: fs) dest = some wr := by
        simp [fsLookup, getKey]
      simp [convertToWebp, hd, hself]

/-- Claim C3 counterexample: a slash-prefixed reference that is absent
under the public root resolves to none even though resolving it against
the document directory (step b) would find an existing file — the code
does not fall through for slash-prefixed references. -/
theorem C3_counterexample :
    resolveImagePath envC3 ("/x.png") = none ∧
    envC3.fsExists (envC3.resolveDoc ("/x.png")) = true := by
  constructor <;> decide

/-- Claim C3 amended: a slash-prefixed reference is resolved against
the public root only, with an immediate null on absence; only for
non-slash references are the document-relative, public-relative and
project-search steps tried in order, null arising exactly when all of
them fail. -/
theorem C3_amended (env : ResolverEnv) (imgRef : String) (hne : imgRef ≠ "") :
    (imgRef.data.head? = some '/' →
      resolveImagePath env imgRef =
        (if env.fsExists (env.joinPub imgRef) then some (env.joinPub imgRef)
         else none)) ∧
    (imgRef.data.head? ≠ some '/' →
      (env.fsExists (env.resolveDoc imgRef) = true →
        resolveImagePath env imgRef = some (env.resolveDoc imgRef)) ∧
      (env.fsExists (env.resolveDoc imgRef) = false →
       env.fsExists (env.joinPub imgRef) = true →
        resolveImagePath env imgRef = some (env.joinPub imgRef)) ∧
      (env.fsExists (env.resolveDoc imgRef) = false →
       env.fsExists (env.joinPub imgRef) = false →
        resolveImagePath env imgRef =
          env.globFirstRaster (String.mk (stripDotSlashL imgRef.data))) ∧
      (resolveImagePath env imgRef = none ↔
        env.fsExists (env.resolveDoc imgRef) = false ∧
        env.fsExists (env.joinPub imgRef) = false ∧
        env.globFirstRaster (String.mk (stripDotSlashL imgRef.data)) = none)) := by
  constructor
  · intro hs
    simp [resolveImagePath, hne, hs]
  · intro hs
    refine ⟨?_, ?_, ?_, ?_⟩
    · intro h1; simp [resolveImagePath, hne, hs, h1]
    · intro h1 h2; simp [resolveImagePath, hne, hs, h1, h2]
    · intro h1 h2; simp [resolveImagePath, hne, hs, h1, h2]
    · by_cases h1 : env.fsExists (env.resolveDoc imgRef) <;>
        by_cases h2 : env.fsExists (env.joinPub imgRef) <;>
        simp [resolveImagePath, hne, hs, h1, h2]

theorem C3_amended_witness :
    resolveImagePath envC3 ("x.png") = none := by
  have h := C3_amended envC3 ("x.png") (by decide)
  exact (h.2 (by decide)).2.2.2.mpr ⟨by decide, by decide, by decide⟩

theorem getKey_eq_none_of_not_mem {β : Type} (k : String)
    (l : List (String × β)) (h : k ∉ l.map Prod.fst) : getKey l k = none := by
  induction l with
  | nil => rfl
  | cons kv rest ih =>
    simp only [List.map_cons, List.mem_cons, not_or] at h
    have hbeq : (kv.1 == k) = false := by
      simp only [beq_eq_false_iff_ne]
      exact fun he => h.1 he.symm
    simp [getKey, hbeq, ih h.2]

theorem any_eq_false_of_getKey_none {β : Type} (k : String)
    (l : List (String × β)) (h : getKey l k = none) :
    l.any (fun kv => kv.1 == k) = false := by
  cases ha : l.any (fun kv => kv.1 == k) with
  | false => rfl
  | true =>
    obtain ⟨b, hb⟩ := getKey_of_any k l ha
    rw [h] at hb
    exact absurd hb (by simp)

theorem getKey_filter_none {β : Type} (k : String) (g : String × β → Bool) :
    ∀ l : List (String × β), getKey l k = none →
      getKey (l.filter g) k = none
  | [] => by intro _; rfl
  | kv :: rest => by
    intro h
    cases hbeq : (kv.1 == k) with
    | true => simp [getKey, hbeq] at h
    | false =>
      have h2 : getKey rest k = none := by simpa [getKey, hbeq] using h
      cases hg : g kv with
      | true => simp [List.filter, hg, getKey, hbeq,
          getKey_filter_none k g rest h2]
      | false => simp [List.filter, hg, getKey_filter_none k g rest h2]

theorem getKey_filter_some {β : Type} (k : String) (g : String × β → Bool)
    (w : β) : ∀ l : List (String × β), getKey l k = some w →
      (∀ kv, kv.1 = k → g kv = true) →
      getKey (l.filter g) k = some w
  | [] => by intro h; simp [getKey] at h
  | kv :: rest => by
    intro h hg
    cases hbeq : (kv.1 == k) with
    | true =>
      have hkv : g kv = true := hg kv (by simpa using hbeq)
      have hw : kv.2 = w := by simpa [getKey, hbeq] using h
      simp [List.filter, hkv, getKey, hbeq, hw]
    | false =>
      have h2 : getKey rest k = some w := by simpa [getKey, hbeq] using h
      cases hg2 : g kv with
      | true => simp [List.filter, hg2, getKey, hbeq,
          getKey_filter_some k g w rest h2 hg]
      | false => simp [List.filter, hg2, getKey_filter_some k g w rest h2 hg]

theorem getKey_spread_map (ue : List (String × CVal)) :
    ∀ (de : List (String × CVal)) (k2 : String),
      getKey (de.map (fun kv => (kv.1, (getKey ue kv.1).getD kv.2))) k2 =
        (getKey de k2).map (fun v => (getKey ue k2).getD v)
  | [], _ => by simp [getKey]
  | dv :: rest, k2 => by
    cases hbeq : (dv.1 == k2) with
    | true =>
      have hk : dv.1 = k2 := by simpa using hbeq
      simp [getKey, hbeq, hk]
    | false =>
      simp [getKey, hbeq, getKey_spread_map ue rest k2]

theorem getKey_spread_of_user_none (de ue : List (String × CVal))
    (k2 : String) (h : getKey ue k2 = none) :
    getKey (spreadEntries de ue) k2 = getKey de k2 := by
  unfold spreadEntries
  cases hd : getKey de k2 with
  | some v =>
    have hm := getKey_spread_map ue de k2
    rw [hd, h] at hm
    exact getKey_append_left k2 _ _ v hm
  | none =>
    have hm := getKey_spread_map ue de k2
    rw [hd] at hm
    rw [getKey_append_right k2 _ _ hm]
    exact getKey_filter_none k2 _ ue h

theorem getKey_spread_of_user_some (de ue : List (String × CVal))
    (k2 : String) (w : CVal) (h : getKey ue k2 = some w) :
    getKey (spreadEntries de ue) k2 = some w := by
  unfold spreadEntries
  cases hd : getKey de k2 with
  | some v =>
    have hm := getKey_spread_map ue de k2
    rw [hd, h] at hm
    exact getKey_append_left k2 _ _ w hm
  | none =>
    have hm := getKey_spread_map ue de k2
    rw [hd] at hm
    rw [getKey_append_right k2 _ _ hm]
    refine getKey_filter_some k2 _ w ue h ?_
    intro kv hkv
    have : de.any (fun dv => dv.1 == kv.1) = false := by
      rw [hkv]
      exact any_eq_false_of_getKey_none k2 de hd
    simp [this]

theorem mergeConfigs_eq_fold (d u : List (String × CVal)) :
    mergeConfigs d u =
      u.foldl (fun res kv => setKey res kv.1 (mergedVal d kv)) d := by
  unfold mergeConfigs mergedVal
  congr 1
  funext res kv
  cases h : getKey d kv.1 with
  | none => simp
  | some dv =>
    cases hc : (isObjV kv.2 && isObjLike dv) with
    | true => simp [hc]
    | false => simp [hc]

theorem foldSet_getKey_none (d : List (String × CVal)) (k : String) :
    ∀ (u : List (String × CVal)) (res : List (String × CVal)),
      getKey u k = none →
      getKey (u.foldl (fun res kv => setKey res kv.1 (mergedVal d kv)) res) k =
        getKey res k
  | [], res => by intro _; rfl
  | kv :: rest, res => by
    intro h
    cases hbeq : (kv.1 == k) with
    | true => simp [getKey, hbeq] at h
    | false =>
      have h2 : getKey rest k = none := by simpa [getKey, hbeq] using h
      have hne : k ≠ kv.1 := by
        intro he
        rw [he] at hbeq
        simp at hbeq
      simp only [List.foldl_cons]
      rw [foldSet_getKey_none d k rest _ h2]
      exact getKey_setKey_ne res kv.1 k (mergedVal d kv) hne

theorem foldSet_getKey_some (d : List (String × CVal)) (k : String) :
    ∀ (u : List (String × CVal)) (res : List (String × CVal)) (uv : CVal),
      (u.map Prod.fst).Nodup →
      getKey u k = some uv →
      getKey (u.foldl (fun res kv => setKey res kv.1 (mergedVal d kv)) res) k =
        some (mergedVal d (k, uv))
  | [], res, uv => by intro _ h; simp [getKey] at h
  | kv :: rest, res, uv => by
    intro hnd h
    simp only [List.map_cons, List.nodup_cons] at hnd
    cases hbeq : (kv.1 == k) with
    | true =>
      have hk : kv.1 = k := by simpa using hbeq
      have huv : kv.2 = uv := by simpa [getKey, hbeq] using h
      have hrest : getKey rest k = none := by
        apply getKey_eq_none_of_not_mem
        rw [← hk]
        exact hnd.1
      simp only [List.foldl_cons]
      rw [foldSet_getKey_none d k rest _ hrest]
      have : (k, uv) = kv := by
        cases kv with
        | mk a b =>
          simp only at hk huv
          rw [hk, huv]
      rw [this, ← hk]
      exact getKey_setKey_self res kv.1 (mergedVal d kv)
    | false =>
      have h2 : getKey rest k = some uv := by simpa [getKey, hbeq] using h
      simp only [List.foldl_cons]
      exact foldSet_getKey_some d k rest _ uv hnd.2 h2

/-- Claim C5 counterexample: the user fragment sets only the effort
sub-key of the nested pngRecompress group; the merge of the code drops
the sibling enabled sub-key of that group, while the recursive deep
merge of the specification keeps it.  The jpgQuality key one level
higher is preserved, showing the merge recurses exactly one level. -/
theorem C5_counterexample :
    lookupPath3 (mergeConfigs dEx uEx)
      ("imageOptimization") ("pngRecompress") ("enabled") = none ∧
    lookupPath3 (specDeepMerge 3 dEx uEx)
      ("imageOptimization") ("pngRecompress") ("enabled") =
      some (CVal.prim ("true")) ∧
    lookupPath3 (mergeConfigs dEx uEx)
      ("imageOptimization") ("pngRecompress") ("effort") =
      some (CVal.prim ("5")) ∧
    (getKey (mergeConfigs dEx uEx) ("imageOptimization")).bind
      (fun v => lookupIn v ("jpgQuality")) = some (CVal.prim ("78")) :=
  ⟨rfl, rfl, rfl, rfl⟩

/-- Claim C5 amended: the merge is deep at the top level only.  A
top-level key absent from the user configuration keeps its default; a
present top-level key receives the factored merge value, which is a
one-level spread when both sides are object-like and the user value
wholesale otherwise; within a spread, default sub-keys absent from the
user group survive, and present user sub-keys replace the default
sub-value wholesale even when both are objects — so setting one field
of a depth-two group such as pngRecompress replaces that whole group. -/
theorem C5_merge_one_level (d u : List (String × CVal)) :
    (∀ k, getKey u k = none →
      getKey (mergeConfigs d u) k = getKey d k) ∧
    ((u.map Prod.fst).Nodup →
      ∀ k uv, getKey u k = some uv →
        getKey (mergeConfigs d u) k = some (mergedVal d (k, uv))) ∧
    (∀ k uv dv, getKey d k = some dv → isObjV uv = true →
      isObjLike dv = true →
      mergedVal d (k, uv) =
        CVal.obj (spreadEntries (entriesOf dv) (entriesOf uv))) ∧
    (∀ k uv, getKey d k = none → mergedVal d (k, uv) = uv) ∧
    (∀ k uv dv, getKey d k = some dv → (isObjV uv && isObjLike dv) = false →
      mergedVal d (k, uv) = uv) ∧
    (∀ de ue k2, getKey ue k2 = none →
      getKey (spreadEntries de ue) k2 = getKey de k2) ∧
    (∀ de ue k2 w, getKey ue k2 = some w →
      getKey (spreadEntries de ue) k2 = some w) := by
  refine ⟨?_, ?_, ?_, ?_, ?_, ?_, ?_⟩
  · intro k h
    rw [mergeConfigs_eq_fold]
    exact foldSet_getKey_none d k u d h
  · intro hnd k uv h
    rw [mergeConfigs_eq_fold]
    exact foldSet_getKey_some d k u d uv hnd h
  · intro k uv dv hd ho hl
    simp [mergedVal, hd, ho, hl]
  · intro k uv hd
    simp [mergedVal, hd]
  · intro k uv dv hd hc
    simp [mergedVal, hd, hc]
  · exact getKey_spread_of_user_none
  · exact getKey_spread_of_user_some

theorem C5_merge_one_level_witness :
    getKey (mergeConfigs dEx uEx) ("imageOptimization") =
      some (mergedVal dEx (("imageOptimization"),
        CVal.obj [("pngRecompress", CVal.obj [("effort", CVal.prim ("5"))])])) :=
  (C5_merge_one_level dEx uEx).2.1 (by decide)
    ("imageOptimization")
    (CVal.obj [("pngRecompress", CVal.obj [("effort", CVal.prim ("5"))])])
    rfl

theorem splitAtGt_append :
    ∀ (l a b : List Char), splitAtGt l = some (a, b) → l = a ++ '>' :: b
  | [], a, b => by simp [splitAtGt]
  | c :: rest, a, b => by
    intro h
    by_cases hc : c = '>'
    · subst hc
      have h2 : a = [] ∧ rest = b := by simpa [splitAtGt] using h
      rw [h2.1, ← h2.2]
      rfl
    · rw [show splitAtGt (c :: rest) =
        (match splitAtGt rest with
         | some p => some (c :: p.1, p.2)
         | none => none) from by simp [splitAtGt, hc]] at h
      cases hs : splitAtGt rest with
      | none => rw [hs] at h; simp at h
      | some pr =>
        obtain ⟨a2, b2⟩ := pr
        rw [hs] at h
        simp only [Option.some.injEq, Prod.mk.injEq] at h
        rw [← h.1, ← h.2]
        have h3 := splitAtGt_append rest a2 b2 hs
        simp [h3]

theorem splitAtGt_no_gt :
    ∀ (l a b : List Char), splitAtGt l = some (a, b) → '>' ∉ a
  | [], a, b => by simp [splitAtGt]
  | c :: rest, a, b => by
    intro h
    by_cases hc : c = '>'
    · subst hc
      have h2 : a = [] ∧ rest = b := by simpa [splitAtGt] using h
      rw [h2.1]
      simp
    · rw [show splitAtGt (c :: rest) =
        (match splitAtGt rest with
         | some p => some (c :: p.1, p.2)
         | none => none) from by simp [splitAtGt, hc]] at h
      cases hs : splitAtGt rest with
      | none => rw [hs] at h; simp at h
      | some pr =>
        obtain ⟨a2, b2⟩ := pr
        rw [hs] at h
        simp only [Option.some.injEq, Prod.mk.injEq] at h
        rw [← h.1]
        intro hm
        rcases List.mem_cons.mp hm with he | hm2
        · exact hc he.symm
        · exact splitAtGt_no_gt rest a2 b2 hs hm2

theorem joinHParts_append (xs ys : List HPart) :
    joinHParts (xs ++ ys) = joinHParts xs ++ joinHParts ys := by
  induction xs with
  | nil => rfl
  | cons p rest ih =>
    show p.content ++ joinHParts (rest ++ ys) =
      (p.content ++ joinHParts rest) ++ joinHParts ys
    rw [ih, List.append_assoc]

theorem joinSParts_append (xs ys : List SPart) :
    joinSParts (xs ++ ys) = joinSParts xs ++ joinSParts ys := by
  induction xs with
  | nil => rfl
  | cons p rest ih =>
    show p.content ++ joinSParts (rest ++ ys) =
      (p.content ++ joinSParts rest) ++ joinSParts ys
    rw [ih, List.append_assoc]

theorem joinH_splitTagsGo :
    ∀ (fuel : Nat) (cs acc : List Char),
      joinHParts (Hanging.splitTagsGo fuel cs acc) = acc.reverse ++ cs
  | 0, cs, acc => by
    by_cases h : acc.reverse ++ cs = []
    · simp [Hanging.splitTagsGo, h, joinHParts]
    · simp [Hanging.splitTagsGo, h, joinHParts, HPart.content]
  | fuel+1, [], acc => by
    by_cases h : acc = []
    · simp [Hanging.splitTagsGo, h, joinHParts]
    · simp [Hanging.splitTagsGo, h, joinHParts, HPart.content]
  | fuel+1, c :: rest, acc => by
    by_cases hc : c = '<'
    · subst hc
      cases hg : splitAtGt rest with
      | some p =>
        obtain ⟨inner, after⟩ := p
        have hr := splitAtGt_append rest inner after hg
        have hrec := joinH_splitTagsGo fuel after []
        simp only [List.reverse_nil, List.nil_append] at hrec
        by_cases h : acc = [] <;>
          (simp [Hanging.splitTagsGo, hg, h, joinHParts, HPart.content];
           rw [hr]; exact congrArg (fun t => inner ++ ('>' :: t)) hrec)
      | none =>
        simp [Hanging.splitTagsGo, hg, joinHParts, HPart.content]
    · simp [Hanging.splitTagsGo, hc, joinH_splitTagsGo fuel rest (c :: acc)]

theorem joinS_splitTagsGo :
    ∀ (fuel : Nat) (cs acc : List Char) (inSup : Bool),
      joinSParts (Superscr.splitTagsGo fuel cs acc inSup) = acc.reverse ++ cs
  | 0, cs, acc, inSup => by
    by_cases h : acc.reverse ++ cs = []
    · simp [Superscr.splitTagsGo, h, joinSParts]
    · cases inSup <;>
        simp [Superscr.splitTagsGo, h, joinSParts, SPart.content]
  | fuel+1, [], acc, inSup => by
    by_cases h : acc = []
    · simp [Superscr.splitTagsGo, h, joinSParts]
    · cases inSup <;>
        simp [Superscr.splitTagsGo, h, joinSParts, SPart.content]
  | fuel+1, c :: rest, acc, inSup => by
    by_cases hc : c = '<'
    · subst hc
      cases hg : splitAtGt rest with
      | some p =>
        obtain ⟨inner, after⟩ := p
        have hr := splitAtGt_append rest inner after hg
        have hrec := fun b => joinS_splitTagsGo fuel after [] b
        simp only [List.reverse_nil, List.nil_append] at hrec
        by_cases h : acc = [] <;> cases inSup <;>
          (simp [Superscr.splitTagsGo, hg, h, joinSParts, SPart.content];
           rw [hr]; exact congrArg (fun t => inner ++ ('>' :: t)) (hrec _))
      | none =>
        cases inSup <;>
          simp [Superscr.splitTagsGo, hg, joinSParts, SPart.content]
    · simp [Superscr.splitTagsGo, hc,
        joinS_splitTagsGo fuel rest (c :: acc) inSup]

theorem join_splitContentByTags_h (cs : List Char) :
    joinHParts (Hanging.splitContentByTags cs) = cs := by
  simpa using joinH_splitTagsGo (cs.length + 1) cs []

theorem join_splitContentByTags_s (cs : List Char) :
    joinSParts (Superscr.splitContentByTags cs) = cs := by
  simpa using joinS_splitTagsGo (cs.length + 1) cs [] false

theorem hTag_shape :
    ∀ (fuel : Nat) (cs acc p : List Char),
      HPart.tag p ∈ Hanging.splitTagsGo fuel cs acc →
      ∃ mid, p = '<' :: mid ++ ['>'] ∧ '>' ∉ mid
  | 0, cs, acc, p => by
    by_cases h : acc.reverse ++ cs = [] <;>
      simp [Hanging.splitTagsGo, h]
  | fuel+1, [], acc, p => by
    by_cases h : acc = [] <;> simp [Hanging.splitTagsGo, h]
  | fuel+1, c :: rest, acc, p => by
    by_cases hc : c = '<'
    · subst hc
      cases hg : splitAtGt rest with
      | some pr =>
        obtain ⟨inner, after⟩ := pr
        intro hm
        by_cases h : acc = [] <;>
          simp only [Hanging.splitTagsGo, hg, h, if_pos, if_neg,
            List.nil_append, List.cons_append, List.mem_cons,
            List.mem_append, List.mem_singleton, ite_true, ite_false,
            List.not_mem_nil, false_or] at hm
        · rcases hm with he | hm2
          · exact ⟨inner, by simpa using he, splitAtGt_no_gt rest inner after hg⟩
          · exact hTag_shape fuel after [] p hm2
        · rcases hm with he | he | hm2
          · exact absurd he.symm (by simp)
          · exact ⟨inner, by simpa using he, splitAtGt_no_gt rest inner after hg⟩
          · exact hTag_shape fuel after [] p hm2
      | none =>
        simp [Hanging.splitTagsGo, hg]
    · intro hm
      exact hTag_shape fuel rest (c :: acc) p (by simpa [Hanging.splitTagsGo, hc] using hm)

theorem prepScan_zero (prep : List Char) :
    ∀ (fuel : Nat) (atStart : Bool) (cs : List Char),
      (prepScan prep fuel atStart cs).2 = 0 →
      (prepScan prep fuel atStart cs).1 = cs
  | 0, atStart, cs => by intro _; rfl
  | fuel+1, atStart, cs => by
    intro h
    cases hm : (if atStart then tryPrepAt prep cs else none) with
    | some x =>
      obtain ⟨m, ws, n, rest⟩ := x
      simp [prepScan, hm] at h
    | none =>
      cases cs with
      | nil => simp [prepScan, hm]
      | cons c rest =>
        by_cases hws : isWsChar c
        · cases hm2 : tryPrepAt prep rest with
          | some x =>
            obtain ⟨m, ws, n, rest2⟩ := x
            simp [prepScan, hm, hws, hm2] at h
          | none =>
            simp only [prepScan, hm, hws, hm2, if_pos] at h ⊢
            simpa using prepScan_zero prep fuel false rest (by simpa using h)
        · simp only [prepScan, hm, hws, if_neg, ite_false] at h ⊢
          simpa using prepScan_zero prep fuel false rest (by simpa using h)

theorem supScan_zero (tok rep : List Char) :
    ∀ (fuel : Nat) (atStart : Bool) (cs : List Char),
      (supScan tok rep fuel atStart cs).2 = 0 →
      (supScan tok rep fuel atStart cs).1 = cs
  | 0, atStart, cs => by intro _; rfl
  | fuel+1, atStart, cs => by
    intro h
    cases hm : (if atStart then tryTokAt tok cs else none) with
    | some rest => simp [supScan, hm] at h
    | none =>
      cases cs with
      | nil => simp [supScan, hm]
      | cons c rest =>
        by_cases hws : isWsChar c || isDigitChar c
        · cases hm2 : tryTokAt tok rest with
          | some rest2 => simp [supScan, hm, hws, hm2] at h
          | none =>
            simp only [supScan, hm, hws, hm2, if_pos] at h ⊢
            simpa using supScan_zero tok rep fuel false rest (by simpa using h)
        · simp only [supScan, hm, hws, if_neg, ite_false] at h ⊢
          simpa using supScan_zero tok rep fuel false rest (by simpa using h)

theorem sTag_shape :
    ∀ (fuel : Nat) (cs acc : List Char) (inSup : Bool) (p : List Char),
      SPart.tag p ∈ Superscr.splitTagsGo fuel cs acc inSup →
      ∃ mid, p = '<' :: mid ++ ['>'] ∧ '>' ∉ mid
  | 0, cs, acc, inSup, p => by
    by_cases h : acc.reverse ++ cs = [] <;> cases inSup <;>
      simp [Superscr.splitTagsGo, h]
  | fuel+1, [], acc, inSup, p => by
    by_cases h : acc = [] <;> cases inSup <;>
      simp [Superscr.splitTagsGo, h]
  | fuel+1, c :: rest, acc, inSup, p => by
    by_cases hc : c = '<'
    · subst hc
      cases hg : splitAtGt rest with
      | some pr =>
        obtain ⟨inner, after⟩ := pr
        intro hm
        simp only [Superscr.splitTagsGo, hg, eq_self_iff_true, if_true] at hm
        rw [List.mem_append] at hm
        rcases hm with hf | hm2
        · by_cases h : acc = []
          · rw [if_pos h] at hf
            simp at hf
          · rw [if_neg h] at hf
            cases hs : inSup <;> rw [hs] at hf <;> simp at hf
        · rcases List.mem_cons.mp hm2 with he | hm3
          · exact ⟨inner, by simpa using he,
              splitAtGt_no_gt rest inner after hg⟩
          · exact sTag_shape fuel after [] _ p hm3
      | none =>
        cases inSup <;> simp [Superscr.splitTagsGo, hg]
    · intro hm
      exact sTag_shape fuel rest (c :: acc) inSup p
        (by simpa [Superscr.splitTagsGo, hc] using hm)

theorem hParts_out (prep : List Char) :
    ∀ ps : List HPart,
      ((ps.map (hTransform prep)).foldr (fun r acc => r.1 ++ acc) []) =
        joinHParts (ps.map (hMapPart prep))
  | [] => rfl
  | p :: rest => by
    cases p with
    | text c =>
      show (prepScan prep (c.length + 1) true c).1 ++ _ = _ ++ _
      rw [hParts_out prep rest]
      rfl
    | tag c =>
      show c ++ _ = c ++ _
      rw [hParts_out prep rest]
      rfl

theorem sParts_out (tok rep : List Char) :
    ∀ ps : List SPart,
      ((ps.map (sTransform tok rep)).foldr (fun r acc => r.1 ++ acc) []) =
        joinSParts (ps.map (sMapPart tok rep))
  | [] => rfl
  | p :: rest => by
    cases p with
    | text c =>
      show (supScan tok rep (c.length + 1) true c).1 ++ _ = _ ++ _
      rw [sParts_out tok rep rest]
      rfl
    | tag c =>
      show c ++ _ = c ++ _
      rw [sParts_out tok rep rest]
      rfl
    | supText c =>
      show c ++ _ = c ++ _
      rw [sParts_out tok rep rest]
      rfl

theorem hParts_zero (prep : List Char) :
    ∀ ps : List HPart,
      ((ps.map (hTransform prep)).foldr (fun r acc => r.2 + acc) 0) = 0 →
      joinHParts (ps.map (hMapPart prep)) = joinHParts ps
  | [] => by intro _; rfl
  | p :: rest => by
    intro h
    cases p with
    | text c =>
      have h2 : (prepScan prep (c.length + 1) true c).2 +
          ((rest.map (hTransform prep)).foldr (fun r acc => r.2 + acc) 0) = 0 := by
        simpa [hTransform] using h
      have hh : (prepScan prep (c.length + 1) true c).2 = 0 ∧
          ((rest.map (hTransform prep)).foldr (fun r acc => r.2 + acc) 0) = 0 := by
        constructor <;> omega
      show (prepScan prep (c.length + 1) true c).1 ++ _ = c ++ _
      rw [prepScan_zero prep (c.length + 1) true c hh.1]
      exact congrArg (fun t => c ++ t) (hParts_zero prep rest hh.2)
    | tag c =>
      have hh : ((rest.map (hTransform prep)).foldr (fun r acc => r.2 + acc) 0) = 0 := by
        simpa [hTransform] using h
      show c ++ _ = c ++ _
      exact congrArg (fun t => c ++ t) (hParts_zero prep rest hh)

theorem sParts_zero (tok rep : List Char) :
    ∀ ps : List SPart,
      ((ps.map (sTransform tok rep)).foldr (fun r acc => r.2 + acc) 0) = 0 →
      joinSParts (ps.map (sMapPart tok rep)) = joinSParts ps
  | [] => by intro _; rfl
  | p :: rest => by
    intro h
    cases p with
    | text c =>
      have h2 : (supScan tok rep (c.length + 1) true c).2 +
          ((rest.map (sTransform tok rep)).foldr (fun r acc => r.2 + acc) 0) = 0 := by
        simpa [sTransform] using h
      have hh : (supScan tok rep (c.length + 1) true c).2 = 0 ∧
          ((rest.map (sTransform tok rep)).foldr (fun r acc => r.2 + acc) 0) = 0 := by
        constructor <;> omega
      show (supScan tok rep (c.length + 1) true c).1 ++ _ = c ++ _
      rw [supScan_zero tok rep (c.length + 1) true c hh.1]
      exact congrArg (fun t => c ++ t) (sParts_zero tok rep rest hh.2)
    | tag c =>
      have hh : ((rest.map (sTransform tok rep)).foldr (fun r acc => r.2 + acc) 0) = 0 := by
        simpa [sTransform] using h
      show c ++ _ = c ++ _
      exact congrArg (fun t => c ++ t) (sParts_zero tok rep rest hh)
    | supText c =>
      have hh : ((rest.map (sTransform tok rep)).foldr (fun r acc => r.2 + acc) 0) = 0 := by
        simpa [sTransform] using h
      show c ++ _ = c ++ _
      exact congrArg (fun t => c ++ t) (sParts_zero tok rep rest hh)

theorem processPreposition_parts (cs prep : List Char) :
    (processPreposition cs prep).1 =
      joinHParts ((Hanging.splitContentByTags cs).map (hMapPart prep)) :=
  hParts_out prep (Hanging.splitContentByTags cs)

theorem performReplacement_parts (cs tok rep : List Char) :
    (performReplacement cs tok rep).1 =
      joinSParts ((Superscr.splitContentByTags cs).map (sMapPart tok rep)) :=
  sParts_out tok rep (Superscr.splitContentByTags cs)

theorem processPreposition_zero (cs prep : List Char)
    (h : (processPreposition cs prep).2 = 0) :
    (processPreposition cs prep).1 = cs := by
  rw [processPreposition_parts,
    hParts_zero prep (Hanging.splitContentByTags cs) h]
  exact join_splitContentByTags_h cs

theorem performReplacement_zero (cs tok rep : List Char)
    (h : (performReplacement cs tok rep).2 = 0) :
    (performReplacement cs tok rep).1 = cs := by
  rw [performReplacement_parts,
    sParts_zero tok rep (Superscr.splitContentByTags cs) h]
  exact join_splitContentByTags_s cs

theorem processPrepositions_zero_aux :
    ∀ (preps : List (List Char)) (c0 : List Char) (n0 : Nat),
      (preps.foldl (fun acc prep =>
        let r := processPreposition acc.1 prep
        (r.1, acc.2 + r.2)) (c0, n0)).2 = 0 →
      n0 = 0 ∧ (preps.foldl (fun acc prep =>
        let r := processPreposition acc.1 prep
        (r.1, acc.2 + r.2)) (c0, n0)).1 = c0
  | [], c0, n0 => by intro h; exact ⟨h, rfl⟩
  | prep :: rest, c0, n0 => by
    intro h
    simp only [List.foldl_cons] at h ⊢
    obtain ⟨h1, h2⟩ := processPrepositions_zero_aux rest _ _ h
    have hn : n0 = 0 ∧ (processPreposition c0 prep).2 = 0 := by
      constructor <;> omega
    refine ⟨hn.1, ?_⟩
    rw [h2]
    exact processPreposition_zero c0 prep hn.2

theorem processPrepositions_zero (preps : List (List Char)) (c0 : List Char)
    (h : (processPrepositions preps c0).2 = 0) :
    (processPrepositions preps c0).1 = c0 :=
  (processPrepositions_zero_aux preps c0 0 h).2

theorem performReplacementList_zero_aux :
    ∀ (reps : List (List Char × List Char)) (c0 : List Char) (n0 : Nat),
      (reps.foldl (fun acc pr =>
        let r := performReplacement acc.1 pr.1 pr.2
        (r.1, acc.2 + r.2)) (c0, n0)).2 = 0 →
      n0 = 0 ∧ (reps.foldl (fun acc pr =>
        let r := performReplacement acc.1 pr.1 pr.2
        (r.1, acc.2 + r.2)) (c0, n0)).1 = c0
  | [], c0, n0 => by intro h; exact ⟨h, rfl⟩
  | pr :: rest, c0, n0 => by
    intro h
    simp only [List.foldl_cons] at h ⊢
    obtain ⟨h1, h2⟩ := performReplacementList_zero_aux rest _ _ h
    have hn : n0 = 0 ∧ (performReplacement c0 pr.1 pr.2).2 = 0 := by
      constructor <;> omega
    refine ⟨hn.1, ?_⟩
    rw [h2]
    exact performReplacement_zero c0 pr.1 pr.2 hn.2

theorem performReplacementList_zero (reps : List (List Char × List Char))
    (c0 : List Char) (h : (performReplacementList reps c0).2 = 0) :
    (performReplacementList reps c0).1 = c0 :=
  (performReplacementList_zero_aux reps c0 0 h).2

theorem templateSplit_decomp (cs pre inner post : List Char)
    (h : templateSplit cs = some (pre, inner, post)) :
    cs = pre ++ inner ++ post := by
  unfold templateSplit at h
  cases hf : findLit (str ("<template")) cs with
  | none => rw [hf] at h; simp at h
  | some p =>
    rw [hf] at h
    simp only [] at h
    cases hg : splitAtGt (cs.drop (p + 9)) with
    | none => simp only [hg] at h; exact absurd h (by simp)
    | some pr =>
      obtain ⟨attrs, afterOpen⟩ := pr
      simp only [hg] at h
      cases hc : findLit (str ("</template>")) afterOpen with
      | none => simp only [hc] at h; exact absurd h (by simp)
      | some q =>
        simp only [hc] at h
        simp only [Option.some.injEq, Prod.mk.injEq] at h
        obtain ⟨h1, h2, h3⟩ := h
        have hd := splitAtGt_append (cs.drop (p + 9)) attrs afterOpen hg
        have hsplit : cs = cs.take (p + 9) ++ cs.drop (p + 9) :=
          (List.take_append_drop (p + 9) cs).symm
        rw [← h1, ← h2, ← h3]
        calc cs = cs.take (p + 9) ++ cs.drop (p + 9) := hsplit
        _ = cs.take (p + 9) ++ (attrs ++ '>' :: afterOpen) := by rw [← hd]
        _ = cs.take (p + 9) ++ (attrs ++ '>' ::
              (afterOpen.take q ++ afterOpen.drop q)) := by
              rw [List.take_append_drop]
        _ = (cs.take (p + 9) ++ (attrs ++ ['>'])) ++ afterOpen.take q ++
              afterOpen.drop q := by simp [List.append_assoc]

/-- Claim C10: for both text processors, rewriting a Vue file touches
only the interior of the first template section: without a template
section the content is returned byte-identical with a zero count, and
with one the output is exactly the original prefix through the template
open tag, the processed interior, and the original suffix from the
template close tag on. -/
theorem C10_vue_template_scoping (content : List Char)
    (preps : List (List Char)) (reps : List (List Char × List Char)) :
    (templateSplit content = none →
      Hanging.processVueFile preps content = (content, 0) ∧
      Superscr.processVueFile reps content = (content, 0)) ∧
    (∀ pre inner post, templateSplit content = some (pre, inner, post) →
      content = pre ++ inner ++ post ∧
      (Hanging.processVueFile preps content).1 =
        pre ++ ((processPrepositions preps inner).1 ++ post) ∧
      (Hanging.processVueFile preps content).2 =
        (processPrepositions preps inner).2 ∧
      (Superscr.processVueFile reps content).1 =
        pre ++ ((performReplacementList reps inner).1 ++ post) ∧
      (Superscr.processVueFile reps content).2 =
        (performReplacementList reps inner).2) := by
  constructor
  · intro h
    constructor <;> simp [Hanging.processVueFile, Superscr.processVueFile, h]
  · intro pre inner post h
    have hdec := templateSplit_decomp content pre inner post h
    refine ⟨hdec, ?_, ?_, ?_, ?_⟩
    · by_cases hz : (processPrepositions preps inner).2 > 0
      · simp [Hanging.processVueFile, h, hz]
      · have hz0 : (processPrepositions preps inner).2 = 0 := by omega
        rw [show (Hanging.processVueFile preps content).1 = content by
          simp [Hanging.processVueFile, h, hz0]]
        rw [processPrepositions_zero preps inner hz0, hdec,
          List.append_assoc]
    · by_cases hz : (processPrepositions preps inner).2 > 0 <;>
        simp [Hanging.processVueFile, h, hz]
    · by_cases hz : (performReplacementList reps inner).2 > 0
      · simp [Superscr.processVueFile, h, hz]
      · have hz0 : (performReplacementList reps inner).2 = 0 := by omega
        rw [show (Superscr.processVueFile reps content).1 = content by
          simp [Superscr.processVueFile, h, hz0]]
        rw [performReplacementList_zero reps inner hz0, hdec,
          List.append_assoc]
    · by_cases hz : (performReplacementList reps inner).2 > 0 <;>
        simp [Superscr.processVueFile, h, hz]

theorem C10_vue_template_scoping_witness :
    (Hanging.processVueFile [str ("в")]
      (str ("<template>a в b</template><p>в x</p>"))).1 =
      str ("<template>") ++
        ((processPrepositions [str ("в")] (str ("a в b"))).1 ++
          str ("</template><p>в x</p>")) :=
  ((C10_vue_template_scoping
      (str ("<template>a в b</template><p>в x</p>")) [str ("в")] []).2
    (str ("<template>")) (str ("a в b")) (str ("</template><p>в x</p>"))
    (by decide)).2.1

/-- Claim C8 counterexample: in the text with two consecutive token
occurrences, both occurrences qualify under the claim (token preceded
by start-of-text or whitespace and followed by whitespace and a word),
yet the code replaces only the first: the scan consumes the character
after the whitespace run, so the second occurrence is skipped and the
reported count is one, not two. -/
theorem C8_counterexample :
    specQualCount (str ("в в слово")) (str ("в")) = 2 ∧
    processPreposition (str ("в в слово")) (str ("в")) =
      (str ("в&nbsp;в слово"), 1) := by
  constructor
  · decide
  · decide

/-- Claim C8 amended: replacements are produced by a single
left-to-right non-overlapping scan per token; each match replaces the
trailing whitespace run of a qualifying occurrence with the marker and
consumes the following character, so a qualifying occurrence
immediately after a match is skipped.  A token at the very end of the
text, or followed by punctuation, matches nothing; a pass reporting
zero replacements leaves the text byte-identical; the specification
example rewrites both tokens with a count of two. -/
theorem C8_hanging_token_scan :
    (processPrepositions [str ("с"), str ("в")]
      (str ("текст с предлогами в начале")) =
      (str ("текст с&nbsp;предлогами в&nbsp;начале"), 2)) ∧
    (processPreposition (str ("слово за")) (str ("за")) =
      (str ("слово за"), 0)) ∧
    (processPreposition (str ("слово за.")) (str ("за")) =
      (str ("слово за."), 0)) ∧
    (processPreposition (str ("в в слово")) (str ("в")) =
      (str ("в&nbsp;в слово"), 1)) ∧
    (∀ prep cs, (processPreposition cs prep).2 = 0 →
      (processPreposition cs prep).1 = cs) := by
  refine ⟨by decide, by decide, by decide, by decide, ?_⟩
  intro prep cs h
  exact processPreposition_zero cs prep h

theorem C8_hanging_token_scan_witness :
    (processPreposition (str ("слово")) (str ("за"))).1 = str ("слово") :=
  C8_hanging_token_scan.2.2.2.2 (str ("за")) (str ("слово")) (by decide)

/-- Claim C9: the splitters decompose any input exactly into parts that
concatenate back to it, every tag part is a bracketed span, and both
substitutions rewrite text parts only, keeping tag parts (and, for the
superscript replacer, sup-interior text) verbatim; on the
specification example only the occurrence outside the sup element is
converted and a second run changes nothing. -/
theorem C9_tag_and_sup_exclusion :
    (∀ cs, joinHParts (Hanging.splitContentByTags cs) = cs) ∧
    (∀ cs, joinSParts (Superscr.splitContentByTags cs) = cs) ∧
    (∀ cs prep, (processPreposition cs prep).1 =
      joinHParts ((Hanging.splitContentByTags cs).map (hMapPart prep))) ∧
    (∀ prep c, hMapPart prep (HPart.tag c) = HPart.tag c) ∧
    (∀ cs tok rep, (performReplacement cs tok rep).1 =
      joinSParts ((Superscr.splitContentByTags cs).map (sMapPart tok rep))) ∧
    (∀ tok rep c, sMapPart tok rep (SPart.tag c) = SPart.tag c ∧
      sMapPart tok rep (SPart.supText c) = SPart.supText c) ∧
    (∀ cs p, HPart.tag p ∈ Hanging.splitContentByTags cs →
      ∃ mid, p = '<' :: mid ++ ['>'] ∧ '>' ∉ mid) ∧
    (∀ cs p, SPart.tag p ∈ Superscr.splitContentByTags cs →
      ∃ mid, p = '<' :: mid ++ ['>'] ∧ '>' ∉ mid) ∧
    (performReplacement (str ("a <sup>м2</sup> b 100 м2."))
        (str ("м2")) (str ("м<sup>2</sup>")) =
      (str ("a <sup>м2</sup> b 100 м<sup>2</sup>."), 1)) ∧
    (performReplacement (str ("a <sup>м2</sup> b 100 м<sup>2</sup>."))
        (str ("м2")) (str ("м<sup>2</sup>")) =
      (str ("a <sup>м2</sup> b 100 м<sup>2</sup>."), 0)) ∧
    (processPreposition
        (str ("<div class=\"в-подпись\">текст в контейнере</div>"))
        (str ("в")) =
      (str ("<div class=\"в-подпись\">текст в&nbsp;контейнере</div>"), 1)) := by
  refine ⟨join_splitContentByTags_h, join_splitContentByTags_s,
    processPreposition_parts, fun _ _ => rfl, performReplacement_parts,
    fun _ _ _ => ⟨rfl, rfl⟩,
    fun cs p hm => hTag_shape (cs.length + 1) cs [] p hm,
    fun cs p hm => sTag_shape (cs.length + 1) cs [] false p hm,
    by decide, by decide, by decide⟩

theorem C9_tag_and_sup_exclusion_witness :
    ∃ mid, str ("<b>") = '<' :: mid ++ ['>'] ∧ '>' ∉ mid :=
  C9_tag_and_sup_exclusion.2.2.2.2.2.2.1 (str ("<b>x")) (str ("<b>"))
    (by decide)

theorem buildSourceElements_recheck (e : ImgEnv) (s : List SourceEl) :
    buildSourceElements e (buildSourceElements e s ++ s) = [] := by
  cases hnd : e.needDownscale <;>
  cases h1 : s.any (fun s =>
    s.type == str ("image/webp") && s.media == e.mobileMedia) <;>
  cases h2 : s.any (fun s =>
    s.type == e.origMime && s.media == e.mobileMedia) <;>
  cases h3 : s.any (fun s =>
    s.type == str ("image/webp") && s.media.isEmpty) <;>
    simp [buildSourceElements, hasSourceCheerio, List.any_append, hnd,
      h1, h2, h3, mobWebpSource, mobOrigSource, desktopWebpSource]

theorem buildSourceElements_conv (e : ImgEnv) :
    buildSourceElements e ((if e.needDownscale then
      [mobWebpSource e, mobOrigSource e] else []) ++
        [desktopWebpSource e]) = [] := by
  cases hnd : e.needDownscale <;>
    simp [buildSourceElements, hasSourceCheerio, hnd, mobWebpSource,
      mobOrigSource, desktopWebpSource]

theorem processRegionItem_idem (it : DocItem) :
    processRegionItem (processRegionItem it) = processRegionItem it := by
  cases it with
  | pic env s =>
    cases env with
    | none => simp [processRegionItem, processPictureFragment]
    | some e =>
      by_cases hadds : (buildSourceElements e s).isEmpty
      · simp [processRegionItem, processPictureFragment, hadds]
      · have h2 : (buildSourceElements e
            (buildSourceElements e s ++ s)).isEmpty = true := by
          rw [buildSourceElements_recheck]
          rfl
        simp [processRegionItem, processPictureFragment, hadds, h2]
  | looseImg env =>
    cases env with
    | none => simp [processRegionItem, convertImgToPicture]
    | some e =>
      have h2 : (buildSourceElements e ((if e.needDownscale then
          [mobWebpSource e, mobOrigSource e] else []) ++
            [desktopWebpSource e])).isEmpty = true := by
        rw [buildSourceElements_conv]
        rfl
      simp [processRegionItem, convertImgToPicture, processPictureFragment, h2]

/-- Claim C1: the image-rewrite step is idempotent at the region level:
every derivative category inserted by the first run is found by the
second run through the source checks (mime type, and for mobile
categories the configured media query), a wrapped standalone image is
seen as a picture whose sources are all present, so a second run adds
no source elements and no marker attributes and returns the document
unchanged. -/
theorem C1_image_rewrite_idempotent (doc : List DocItem) :
    processGenericRegion (processGenericRegion doc) =
      processGenericRegion doc := by
  unfold processGenericRegion
  rw [List.map_map]
  refine List.map_congr_left (fun a _ => ?_)
  exact processRegionItem_idem a

/-- Claim C4, evaluated at the failing input: on a flat CSS rule whose
URL resolves to an existing raster image with a WebP derivative, the
rule-context scan returns an empty rule (its backward walk never breaks
once it has seen the opening brace of the enclosing rule, and its
forward walk decrements the counter at the closing brace without being
inside a rule), so the replace of the empty string prepends the two
feature-detection blocks - which wrap only the bare declaration, not
the enclosing rule - while the original rule, selector and sibling
declarations remain untouched in place.  Skip-listed URLs (data URIs,
gradients) leave the text byte-identical. -/
theorem C4_css_rule_replacement_bug :
    findRuleContext heroCss heroDecl = some ([], []) ∧
    (processBackgroundImages cssEnvC4 heroCss).content =
      createWebPRule heroDecl (str ("images/hero.jpg"))
        (str ("images/hero.webp")) ++ heroCss ∧
    (processBackgroundImages cssEnvC4 heroCss).webpRulesAdded = 1 ∧
    (processBackgroundImages cssEnvC4
      (str (".icon \x7b background-image: url('data:image/png;base64,abc'); \x7d"))).content =
      str (".icon \x7b background-image: url('data:image/png;base64,abc'); \x7d") ∧
    (processBackgroundImages cssEnvC4
      (str (".g \x7b background-image: linear-gradient(red, blue); \x7d"))).content =
      str (".g \x7b background-image: linear-gradient(red, blue); \x7d") := by
  refine ⟨by decide, by decide, by decide, by decide, by decide⟩

theorem ciStarts_length :
    ∀ (pat l : List Char), ciStarts pat l = true → pat.length ≤ l.length
  | [], l => by intro _; simp
  | p :: ps, [] => by intro h; simp [ciStarts] at h
  | p :: ps, c :: cs => by
    intro h
    simp only [ciStarts, Bool.and_eq_true] at h
    simpa using ciStarts_length ps cs h.2

theorem ciStarts_ext :
    ∀ (pat l ext : List Char), ciStarts pat l = true →
      ciStarts pat (l ++ ext) = true
  | [], l, ext => by intro _; rfl
  | p :: ps, [], ext => by intro h; simp [ciStarts] at h
  | p :: ps, c :: cs, ext => by
    intro h
    simp only [ciStarts, Bool.and_eq_true] at h ⊢
    exact ⟨h.1, ciStarts_ext ps cs ext h.2⟩

theorem ciStarts_restrict :
    ∀ (pat l ext : List Char), ciStarts pat (l ++ ext) = true →
      pat.length ≤ l.length → ciStarts pat l = true
  | [], l, ext => by intro _ _; rfl
  | p :: ps, [], ext => by intro _ h2; simp at h2
  | p :: ps, c :: cs, ext => by
    intro h h2
    simp only [List.cons_append, ciStarts, Bool.and_eq_true] at h ⊢
    exact ⟨h.1, ciStarts_restrict ps cs ext h.2 (by simpa using h2)⟩

theorem takeWhile_ext (p : Char → Bool) :
    ∀ (l ext : List Char), (l.dropWhile p) ≠ [] →
      (l ++ ext).takeWhile p = l.takeWhile p ∧
      (l ++ ext).dropWhile p = l.dropWhile p ++ ext
  | [], ext => by intro h; simp [List.dropWhile] at h
  | c :: rest, ext => by
    intro h
    cases hc : p c with
    | true =>
      have h2 : rest.dropWhile p ≠ [] := by
        simpa [List.dropWhile, hc] using h
      have ih := takeWhile_ext p rest ext h2
      simp [List.takeWhile, List.dropWhile, hc, ih.1, ih.2]
    | false =>
      simp [List.takeWhile, List.dropWhile, hc]

theorem takeWhile_append_of_lt (p : Char → Bool) :
    ∀ (l ext : List Char), ((l ++ ext).takeWhile p).length < l.length →
      l.takeWhile p = (l ++ ext).takeWhile p ∧
      l.dropWhile p ++ ext = (l ++ ext).dropWhile p
  | [], ext => by intro h; simp at h
  | c :: rest, ext => by
    intro h
    cases hc : p c with
    | true =>
      have h2 : ((rest ++ ext).takeWhile p).length < rest.length := by
        rw [show (c :: rest) ++ ext = c :: (rest ++ ext) from rfl] at h
        simpa [List.takeWhile, hc] using h
      have ih := takeWhile_append_of_lt p rest ext h2
      simp [List.takeWhile, List.dropWhile, hc, ih.1, ih.2]
    | false =>
      simp [List.takeWhile, List.dropWhile, hc]

theorem drop_length_takeWhile (p : Char → Bool) :
    ∀ (l : List Char), l.drop ((l.takeWhile p).length) = l.dropWhile p
  | [] => rfl
  | c :: rest => by
    cases hc : p c with
    | true =>
      simp [List.takeWhile, List.dropWhile, hc,
        drop_length_takeWhile p rest]
    | false =>
      simp [List.takeWhile, List.dropWhile, hc]

theorem splitAtGt_length :
    ∀ (l a b : List Char), splitAtGt l = some (a, b) →
      l.length = a.length + 1 + b.length := by
  intro l a b h
  rw [splitAtGt_append l a b h]
  simp
  omega

theorem splitAtGt_ext :
    ∀ (l ext a b : List Char), splitAtGt l = some (a, b) →
      splitAtGt (l ++ ext) = some (a, b ++ ext)
  | [], ext, a, b => by intro h; simp [splitAtGt] at h
  | c :: rest, ext, a, b => by
    intro h
    by_cases hc : c = '>'
    · subst hc
      have h2 : a = [] ∧ rest = b := by simpa [splitAtGt] using h
      obtain ⟨ha, hb⟩ := h2
      subst ha; subst hb
      simp [splitAtGt]
    · rw [show splitAtGt (c :: rest) =
        (match splitAtGt rest with
         | some p => some (c :: p.1, p.2)
         | none => none) from by simp [splitAtGt, hc]] at h
      cases hs : splitAtGt rest with
      | none => rw [hs] at h; simp at h
      | some pr =>
        obtain ⟨a2, b2⟩ := pr
        rw [hs] at h
        simp only [Option.some.injEq, Prod.mk.injEq] at h
        have ih := splitAtGt_ext rest ext a2 b2 hs
        rw [show (c :: rest) ++ ext = c :: (rest ++ ext) from rfl]
        rw [show splitAtGt (c :: (rest ++ ext)) =
          (match splitAtGt (rest ++ ext) with
           | some p => some (c :: p.1, p.2)
           | none => none) from by simp [splitAtGt, hc], ih]
        rw [← h.1, ← h.2]

theorem splitAtGt_restrict :
    ∀ (l ext a b : List Char), splitAtGt (l ++ ext) = some (a, b) →
      a.length + 1 ≤ l.length →
      ∃ b2, splitAtGt l = some (a, b2) ∧ b = b2 ++ ext
  | [], ext, a, b => by intro _ h2; simp at h2
  | c :: rest, ext, a, b => by
    intro h h2
    by_cases hc : c = '>'
    · subst hc
      have h3 : a = [] ∧ rest ++ ext = b := by
        simpa [splitAtGt] using h
      exact ⟨rest, by simp [splitAtGt, ← h3.1], h3.2.symm⟩
    · rw [show (c :: rest) ++ ext = c :: (rest ++ ext) from rfl] at h
      rw [show splitAtGt (c :: (rest ++ ext)) =
        (match splitAtGt (rest ++ ext) with
         | some p => some (c :: p.1, p.2)
         | none => none) from by simp [splitAtGt, hc]] at h
      cases hs : splitAtGt (rest ++ ext) with
      | none => rw [hs] at h; simp at h
      | some pr =>
        obtain ⟨a2, b2⟩ := pr
        rw [hs] at h
        simp only [Option.some.injEq, Prod.mk.injEq] at h
        have ha : a = c :: a2 := h.1.symm
        have hlen : a2.length + 1 ≤ rest.length := by
          rw [ha] at h2
          simpa using h2
        obtain ⟨b3, hb3, hb⟩ := splitAtGt_restrict rest ext a2 b2 hs hlen
        refine ⟨b3, ?_, by rw [← h.2, hb]⟩
        rw [show splitAtGt (c :: rest) =
          (match splitAtGt rest with
           | some p => some (c :: p.1, p.2)
           | none => none) from by simp [splitAtGt, hc], hb3, ha]

theorem openPicMatch_iff (l : List Char) (k : Nat) :
    openPicMatch l = some k ↔
      ciStarts (str ("<picture")) l = true ∧
      ∃ d t a b, l.drop 8 = d :: t ∧ isWordChar d = false ∧
        splitAtGt (l.drop 8) = some (a, b) ∧ k = 8 + a.length + 1 := by
  constructor
  · intro h
    by_cases hci : ciStarts (str ("<picture")) l = true
    · refine ⟨hci, ?_⟩
      simp only [openPicMatch, hci, if_true] at h
      cases hd : l.drop 8 with
      | nil => rw [hd] at h; simp at h
      | cons d t =>
        simp only [hd] at h
        cases hw : isWordChar d with
        | true => rw [hw] at h; simp at h
        | false =>
          rw [hw] at h
          simp only [Bool.false_eq_true, if_false] at h
          cases hs : splitAtGt (d :: t) with
          | none => rw [hs] at h; simp at h
          | some pr =>
            obtain ⟨a, b⟩ := pr
            rw [hs] at h
            have h2 : 8 + a.length + 1 = k := by simpa using h
            exact ⟨d, t, a, b, rfl, hw, rfl, h2.symm⟩
    · simp only [openPicMatch, if_neg hci] at h
      exact absurd h (by simp)
  · rintro ⟨hci, d, t, a, b, hd, hw, hs, hk⟩
    simp only [openPicMatch, hci, if_true, hd]
    rw [← hd, hs, hw]
    simp [hk]

theorem imgMatch_iff (l : List Char) (k : Nat) :
    imgMatch l = some k ↔
      ciStarts (str ("<img")) l = true ∧
      ∃ d t a b, l.drop 4 = d :: t ∧ isWordChar d = false ∧
        splitAtGt (l.drop 4) = some (a, b) ∧ k = 4 + a.length + 1 := by
  constructor
  · intro h
    by_cases hci : ciStarts (str ("<img")) l = true
    · refine ⟨hci, ?_⟩
      simp only [imgMatch, hci, if_true] at h
      cases hd : l.drop 4 with
      | nil => rw [hd] at h; simp at h
      | cons d t =>
        simp only [hd] at h
        cases hw : isWordChar d with
        | true => rw [hw] at h; simp at h
        | false =>
          rw [hw] at h
          simp only [Bool.false_eq_true, if_false] at h
          cases hs : splitAtGt (d :: t) with
          | none => rw [hs] at h; simp at h
          | some pr =>
            obtain ⟨a, b⟩ := pr
            rw [hs] at h
            have h2 : 4 + a.length + 1 = k := by simpa using h
            exact ⟨d, t, a, b, rfl, hw, rfl, h2.symm⟩
    · simp only [imgMatch, if_neg hci] at h
      exact absurd h (by simp)
  · rintro ⟨hci, d, t, a, b, hd, hw, hs, hk⟩
    simp only [imgMatch, hci, if_true, hd]
    rw [← hd, hs, hw]
    simp [hk]

theorem closePicMatch_iff (l : List Char) (k : Nat) :
    closePicMatch l = some k ↔
      ciStarts (str ("</picture")) l = true ∧
      ∃ t, (l.drop 9).drop (((l.drop 9).takeWhile isWsChar).length) =
          '>' :: t ∧
        k = 9 + ((l.drop 9).takeWhile isWsChar).length + 1 := by
  constructor
  · intro h
    by_cases hci : ciStarts (str ("</picture")) l = true
    · refine ⟨hci, ?_⟩
      simp only [closePicMatch, hci, if_true] at h
      cases hd : (l.drop 9).drop (((l.drop 9).takeWhile isWsChar).length) with
      | nil => rw [hd] at h; simp at h
      | cons d t =>
        rw [hd] at h
        by_cases hgt : d = '>'
        · subst hgt
          simp only [Option.some.injEq] at h
          exact ⟨t, rfl, h.symm⟩
        · cases d
          simp_all [closePicMatch]
    · simp only [closePicMatch, if_neg hci] at h
      exact absurd h (by simp)
  · rintro ⟨hci, t, hd, hk⟩
    simp only [closePicMatch, hci, if_true, hd]
    simp [hk]

theorem openPicMatch_bound (l : List Char) (k : Nat)
    (h : openPicMatch l = some k) : 1 ≤ k ∧ k ≤ l.length := by
  obtain ⟨hci, d, t, a, b, hd, hw, hs, hk⟩ := (openPicMatch_iff l k).mp h
  have hp8 : (str ("<picture")).length = 8 := by decide
  have h1 := ciStarts_length _ _ hci
  have h3 := splitAtGt_length _ _ _ hs
  have h4 : (l.drop 8).length = l.length - 8 := by simp
  omega

theorem imgMatch_bound (l : List Char) (k : Nat)
    (h : imgMatch l = some k) : 1 ≤ k ∧ k ≤ l.length := by
  obtain ⟨hci, d, t, a, b, hd, hw, hs, hk⟩ := (imgMatch_iff l k).mp h
  have hp4 : (str ("<img")).length = 4 := by decide
  have h1 := ciStarts_length _ _ hci
  have h3 := splitAtGt_length _ _ _ hs
  have h4 : (l.drop 4).length = l.length - 4 := by simp
  omega

theorem closePicMatch_bound (l : List Char) (k : Nat)
    (h : closePicMatch l = some k) : 1 ≤ k ∧ k ≤ l.length := by
  obtain ⟨hci, t, hd, hk⟩ := (closePicMatch_iff l k).mp h
  have hp9 : (str ("</picture")).length = 9 := by decide
  have h1 := ciStarts_length _ _ hci
  have h4 : (l.drop 9).length = l.length - 9 := by simp
  have h5 : ((l.drop 9).takeWhile isWsChar).length < (l.drop 9).length := by
    by_contra hcon
    push_neg at hcon
    rw [List.drop_eq_nil_of_le hcon] at hd
    exact absurd hd (by simp)
  omega

theorem openPicMatch_ext (l ext : List Char) (k : Nat)
    (h : openPicMatch l = some k) : openPicMatch (l ++ ext) = some k := by
  obtain ⟨hci, d, t, a, b, hd, hw, hs, hk⟩ := (openPicMatch_iff l k).mp h
  have hp8 : (str ("<picture")).length = 8 := by decide
  have h8 : (8 : Nat) ≤ l.length := by
    have h1 := ciStarts_length _ _ hci
    omega
  have hda : (l ++ ext).drop 8 = l.drop 8 ++ ext :=
    List.drop_append_of_le_length h8
  refine (openPicMatch_iff _ k).mpr
    ⟨ciStarts_ext _ _ _ hci, d, t ++ ext, a, b ++ ext, ?_, hw, ?_, hk⟩
  · rw [hda, hd]
    rfl
  · rw [hda]
    exact splitAtGt_ext _ _ _ _ hs

theorem imgMatch_ext (l ext : List Char) (k : Nat)
    (h : imgMatch l = some k) : imgMatch (l ++ ext) = some k := by
  obtain ⟨hci, d, t, a, b, hd, hw, hs, hk⟩ := (imgMatch_iff l k).mp h
  have hp4 : (str ("<img")).length = 4 := by decide
  have h4 : (4 : Nat) ≤ l.length := by
    have h1 := ciStarts_length _ _ hci
    omega
  have hda : (l ++ ext).drop 4 = l.drop 4 ++ ext :=
    List.drop_append_of_le_length h4
  refine (imgMatch_iff _ k).mpr
    ⟨ciStarts_ext _ _ _ hci, d, t ++ ext, a, b ++ ext, ?_, hw, ?_, hk⟩
  · rw [hda, hd]
    rfl
  · rw [hda]
    exact splitAtGt_ext _ _ _ _ hs

theorem closePicMatch_ext (l ext : List Char) (k : Nat)
    (h : closePicMatch l = some k) : closePicMatch (l ++ ext) = some k := by
  obtain ⟨hci, t, hd, hk⟩ := (closePicMatch_iff l k).mp h
  have hp9 : (str ("</picture")).length = 9 := by decide
  have h9 : (9 : Nat) ≤ l.length := by
    have h1 := ciStarts_length _ _ hci
    omega
  have hda : (l ++ ext).drop 9 = l.drop 9 ++ ext :=
    List.drop_append_of_le_length h9
  have hdw : (l.drop 9).dropWhile isWsChar = '>' :: t := by
    rw [← drop_length_takeWhile isWsChar]
    exact hd
  have hne : (l.drop 9).dropWhile isWsChar ≠ [] := by
    rw [hdw]
    simp
  have hext := takeWhile_ext isWsChar (l.drop 9) ext hne
  refine (closePicMatch_iff _ k).mpr ⟨ciStarts_ext _ _ _ hci, t ++ ext, ?_, ?_⟩
  · rw [hda, drop_length_takeWhile isWsChar, hext.2, hdw]
    rfl
  · rw [hda, hext.1]
    exact hk

theorem openPicMatch_restrict (l ext : List Char) (k : Nat)
    (h : openPicMatch (l ++ ext) = some k) (hk : k ≤ l.length) :
    openPicMatch l = some k := by
  obtain ⟨hci, d, t, a, b, hd, hw, hs, hkk⟩ := (openPicMatch_iff _ k).mp h
  have hp8 : (str ("<picture")).length = 8 := by decide
  have h8 : (8 : Nat) ≤ l.length := by omega
  have hda : (l ++ ext).drop 8 = l.drop 8 ++ ext :=
    List.drop_append_of_le_length h8
  have hlen8 : (l.drop 8).length = l.length - 8 := by simp
  obtain ⟨d0, t0, hd0⟩ : ∃ d0 t0, l.drop 8 = d0 :: t0 := by
    cases hl : l.drop 8 with
    | nil =>
      have : (l.drop 8).length = 0 := by rw [hl]; rfl
      omega
    | cons x xs => exact ⟨x, xs, rfl⟩
  have hheads : d0 :: (t0 ++ ext) = d :: t := by
    rw [← hd, hda, hd0]
    rfl
  have halen : a.length + 1 ≤ (l.drop 8).length := by omega
  obtain ⟨b2, hb2, hbe⟩ :=
    splitAtGt_restrict (l.drop 8) ext a b (by rw [← hda]; exact hs) halen
  refine (openPicMatch_iff l k).mpr
    ⟨ciStarts_restrict _ _ _ hci (by omega), d0, t0, a, b2, hd0, ?_, hb2, hkk⟩
  rw [show d0 = d from (List.cons.injEq _ _ _ _ ▸ hheads).1]
  exact hw

theorem imgMatch_restrict (l ext : List Char) (k : Nat)
    (h : imgMatch (l ++ ext) = some k) (hk : k ≤ l.length) :
    imgMatch l = some k := by
  obtain ⟨hci, d, t, a, b, hd, hw, hs, hkk⟩ := (imgMatch_iff _ k).mp h
  have hp4 : (str ("<img")).length = 4 := by decide
  have h4 : (4 : Nat) ≤ l.length := by omega
  have hda : (l ++ ext).drop 4 = l.drop 4 ++ ext :=
    List.drop_append_of_le_length h4
  have hlen4 : (l.drop 4).length = l.length - 4 := by simp
  obtain ⟨d0, t0, hd0⟩ : ∃ d0 t0, l.drop 4 = d0 :: t0 := by
    cases hl : l.drop 4 with
    | nil =>
      have : (l.drop 4).length = 0 := by rw [hl]; rfl
      omega
    | cons x xs => exact ⟨x, xs, rfl⟩
  have hheads : d0 :: (t0 ++ ext) = d :: t := by
    rw [← hd, hda, hd0]
    rfl
  have halen : a.length + 1 ≤ (l.drop 4).length := by omega
  obtain ⟨b2, hb2, hbe⟩ :=
    splitAtGt_restrict (l.drop 4) ext a b (by rw [← hda]; exact hs) halen
  refine (imgMatch_iff l k).mpr
    ⟨ciStarts_restrict _ _ _ hci (by omega), d0, t0, a, b2, hd0, ?_, hb2, hkk⟩
  rw [show d0 = d from (List.cons.injEq _ _ _ _ ▸ hheads).1]
  exact hw

theorem closePicMatch_restrict (l ext : List Char) (k : Nat)
    (h : closePicMatch (l ++ ext) = some k) (hk : k ≤ l.length) :
    closePicMatch l = some k := by
  obtain ⟨hci, t, hd, hkk⟩ := (closePicMatch_iff _ k).mp h
  have hp9 : (str ("</picture")).length = 9 := by decide
  have h9 : (9 : Nat) ≤ l.length := by omega
  have hda : (l ++ ext).drop 9 = l.drop 9 ++ ext :=
    List.drop_append_of_le_length h9
  have hlen9 : (l.drop 9).length = l.length - 9 := by simp
  rw [hda] at hd hkk
  have hwlt : ((l.drop 9 ++ ext).takeWhile isWsChar).length <
      (l.drop 9).length := by omega
  have hres := takeWhile_append_of_lt isWsChar (l.drop 9) ext hwlt
  have hdw : (l.drop 9).dropWhile isWsChar ++ ext = '>' :: t := by
    rw [hres.2, ← drop_length_takeWhile isWsChar]
    exact hd
  obtain ⟨t2, ht2, hte⟩ :
      ∃ t2, (l.drop 9).dropWhile isWsChar = '>' :: t2 ∧ t = t2 ++ ext := by
    cases hl : (l.drop 9).dropWhile isWsChar with
    | nil =>
      exfalso
      have hfull := List.takeWhile_append_dropWhile (p := isWsChar)
        (l := l.drop 9)
      rw [hl, List.append_nil] at hfull
      have : ((l.drop 9).takeWhile isWsChar).length = (l.drop 9).length := by
        rw [hfull]
      rw [hres.1] at this
      omega
    | cons x xs =>
      rw [hl] at hdw
      have hx := (List.cons.injEq x (xs ++ ext) '>' t).mp (by simpa using hdw)
      exact ⟨xs, by rw [hx.1], hx.2.symm⟩
  refine (closePicMatch_iff l k).mpr
    ⟨ciStarts_restrict _ _ _ hci (by omega), t2, ?_, ?_⟩
  · rw [drop_length_takeWhile isWsChar]
    exact ht2
  · rw [← hres.1] at hkk
    exact hkk

theorem allMatches_mem (m : List Char → Option Nat) (doc : List Char)
    (s e : Nat) :
    (s, e) ∈ allMatches m doc ↔
      s < doc.length ∧ ∃ k, m (doc.drop s) = some k ∧ e = s + k := by
  constructor
  · intro h
    rw [allMatches, List.mem_filterMap] at h
    obtain ⟨a, ha, hf⟩ := h
    rw [List.mem_range] at ha
    cases hm : m (doc.drop a) with
    | none => rw [hm] at hf; simp at hf
    | some k =>
      rw [hm] at hf
      have h2 : a = s ∧ a + k = e := by simpa using hf
      obtain ⟨h3, h4⟩ := h2
      subst h3
      exact ⟨ha, k, hm, h4.symm⟩
  · rintro ⟨hs, k, hm, he⟩
    rw [allMatches, List.mem_filterMap]
    exact ⟨s, List.mem_range.mpr hs, by rw [hm, he]; rfl⟩

theorem pairwise_filterMap {α β : Type} {R : α → α → Prop} {S : β → β → Prop}
    (f : α → Option β)
    (hrel : ∀ a b x y, R a b → f a = some x → f b = some y → S x y) :
    ∀ (l : List α), l.Pairwise R → (l.filterMap f).Pairwise S
  | [], _ => by simp
  | a :: rest, hp => by
    rw [List.pairwise_cons] at hp
    have ih := pairwise_filterMap f hrel rest hp.2
    cases hf : f a with
    | none => simpa [List.filterMap_cons, hf] using ih
    | some x =>
      simp only [List.filterMap_cons, hf]
      refine List.Pairwise.cons ?_ ih
      intro y hy
      rw [List.mem_filterMap] at hy
      obtain ⟨b, hb, hfb⟩ := hy
      exact hrel a b x y (hp.1 b hb) hf hfb

theorem allMatches_sorted (m : List Char → Option Nat) (doc : List Char) :
    (allMatches m doc).Pairwise (fun x y => x.1 < y.1) := by
  rw [allMatches]
  refine pairwise_filterMap _ ?_ _ (List.pairwise_lt_range _)
  intro a b x y hab hfa hfb
  cases hma : m (doc.drop a) with
  | none => rw [hma] at hfa; simp at hfa
  | some k =>
    rw [hma] at hfa
    cases hmb : m (doc.drop b) with
    | none => rw [hmb] at hfb; simp at hfb
    | some k2 =>
      rw [hmb] at hfb
      have h1 : (a, a + k) = x := by simpa using hfa
      have h2 : (b, b + k2) = y := by simpa using hfb
      rw [← h1, ← h2]
      exact hab

theorem matcher_take (m : List Char → Option Nat)
    (hbound : ∀ l k, m l = some k → k ≤ l.length)
    (hext : ∀ l ext k, m l = some k → m (l ++ ext) = some k)
    (hres : ∀ l ext k, m (l ++ ext) = some k → k ≤ l.length → m l = some k)
    (l0 : List Char) (n : Nat) :
    m (l0.take n) =
      match m l0 with
      | some k => if k ≤ n then some k else none
      | none => none := by
  have hsplit : l0.take n ++ l0.drop n = l0 := List.take_append_drop n l0
  have htlen : (l0.take n).length = min n l0.length := List.length_take _ _
  cases hm : m l0 with
  | some k =>
    by_cases hk : k ≤ n
    · have hb := hbound l0 k hm
      have hk2 : k ≤ (l0.take n).length := by omega
      have := hres (l0.take n) (l0.drop n) k (by rw [hsplit]; exact hm) hk2
      simp only [this, hk, if_true]
    · cases hm2 : m (l0.take n) with
      | none => simp [hk]
      | some k2 =>
        exfalso
        have hb2 := hbound _ _ hm2
        have := hext (l0.take n) (l0.drop n) k2 hm2
        rw [hsplit, hm] at this
        have hkk : k = k2 := by simpa using this
        omega
  | none =>
    cases hm2 : m (l0.take n) with
    | none => rfl
    | some k2 =>
      exfalso
      have := hext (l0.take n) (l0.drop n) k2 hm2
      rw [hsplit, hm] at this
      exact absurd this (by simp)

theorem filter_filterMap_eq {α β : Type} (f : α → Option β) (p : β → Bool) :
    ∀ (l : List α),
      (l.filterMap f).filter p =
        l.filterMap (fun a => (f a).bind (fun b => if p b then some b else none))
  | [] => rfl
  | a :: rest => by
    have ih := filter_filterMap_eq f p rest
    cases hf : f a with
    | none => simp only [List.filterMap_cons, hf, Option.none_bind, ih]
    | some b =>
      cases hpb : p b with
      | true => simp only [List.filterMap_cons, hf, Option.some_bind,
          List.filter_cons, hpb, if_true, ih]
      | false => simp only [List.filterMap_cons, hf, Option.some_bind,
          List.filter_cons, hpb, if_false, ih, Bool.false_eq_true]

theorem filterMap_congr_mem {α β : Type} (f g : α → Option β) :
    ∀ (l : List α), (∀ a ∈ l, f a = g a) → l.filterMap f = l.filterMap g
  | [], _ => rfl
  | a :: rest, h => by
    have ih := filterMap_congr_mem f g rest (fun b hb => h b (by simp [hb]))
    have ha := h a (by simp)
    simp only [List.filterMap_cons, ha, ih]

theorem allMatches_take (m : List Char → Option Nat)
    (hpos : ∀ l k, m l = some k → 1 ≤ k)
    (hbound : ∀ l k, m l = some k → k ≤ l.length)
    (hext : ∀ l ext k, m l = some k → m (l ++ ext) = some k)
    (hres : ∀ l ext k, m (l ++ ext) = some k → k ≤ l.length → m l = some k)
    (doc : List Char) (n : Nat) (hn : n ≤ doc.length) :
    allMatches m (doc.take n) =
      (allMatches m doc).filter (fun se => decide (se.2 ≤ n)) := by
  have hlen : (doc.take n).length = n := by
    rw [List.length_take]
    omega
  rw [allMatches, allMatches, hlen, filter_filterMap_eq]
  have hrange : List.range doc.length =
      List.range n ++ (List.range (doc.length - n)).map (fun i => n + i) := by
    rw [← List.range_add]
    congr 1
    omega
  rw [hrange, List.filterMap_append]
  have h2 : ((List.range (doc.length - n)).map (fun i => n + i)).filterMap
      (fun a => ((m (doc.drop a)).map (fun k => (a, a + k))).bind
        (fun b => if decide (b.2 ≤ n) = true then some b else none)) = [] := by
    rw [List.filterMap_eq_nil_iff]
    intro a ha
    rw [List.mem_map] at ha
    obtain ⟨i, _, hi⟩ := ha
    cases hm : m (doc.drop a) with
    | none => simp
    | some k =>
      have hk := hpos _ _ hm
      have : ¬ (a + k ≤ n) := by omega
      simp [this]
  rw [h2, List.append_nil]
  refine filterMap_congr_mem _ _ _ ?_
  intro a ha
  rw [List.mem_range] at ha
  have hdt : (doc.take n).drop a = (doc.drop a).take (n - a) := by
    rw [List.drop_take]
  rw [hdt, matcher_take m hbound hext hres (doc.drop a) (n - a)]
  cases hm : m (doc.drop a) with
  | none => simp
  | some k =>
    by_cases hk : k ≤ n - a
    · have hk2 : a + k ≤ n := by omega
      simp [hk, hk2]
    · have hk2 : ¬ (a + k ≤ n) := by omega
      simp [hk, hk2]

theorem filter_congr_mem {α : Type} (p q : α → Bool) :
    ∀ (l : List α), (∀ a ∈ l, p a = q a) → l.filter p = l.filter q
  | [], _ => rfl
  | a :: rest, h => by
    have ih := filter_congr_mem p q rest (fun b hb => h b (by simp [hb]))
    have ha := h a (by simp)
    simp only [List.filter_cons, ha, ih]

theorem filter_true_mem {α : Type} (p : α → Bool) :
    ∀ (l : List α), (∀ a ∈ l, p a = true) → l.filter p = l
  | [], _ => rfl
  | a :: rest, h => by
    have ih := filter_true_mem p rest (fun b hb => h b (by simp [hb]))
    have ha := h a (by simp)
    simp only [List.filter_cons, ha, if_true, ih]

theorem filter_false_mem {α : Type} (p : α → Bool) :
    ∀ (l : List α), (∀ a ∈ l, p a = false) → l.filter p = []
  | [], _ => rfl
  | a :: rest, h => by
    have ih := filter_false_mem p rest (fun b hb => h b (by simp [hb]))
    have ha := h a (by simp)
    simp only [List.filter_cons, ha, ih, Bool.false_eq_true, if_false]

theorem filter_filter_ge :
    ∀ (am : List (Nat × Nat)) (p q : Nat), p ≤ q →
      ((am.filter (fun se => decide (p ≤ se.1))).filter
        (fun se => decide (q ≤ se.1))) =
        am.filter (fun se => decide (q ≤ se.1))
  | [], _, _, _ => rfl
  | a :: rest, p, q, hpq => by
    have ih := filter_filter_ge rest p q hpq
    by_cases hq : q ≤ a.1
    · have hp : p ≤ a.1 := le_trans hpq hq
      have e1 : (decide (p ≤ a.1)) = true := by simpa using hp
      have e2 : (decide (q ≤ a.1)) = true := by simpa using hq
      simp only [List.filter_cons, e1, e2, eq_self_iff_true, if_true, ih]
    · have e2 : (decide (q ≤ a.1)) = false := by simpa using hq
      by_cases hp : p ≤ a.1
      · have e1 : (decide (p ≤ a.1)) = true := by simpa using hp
        simp only [List.filter_cons, e1, e2, eq_self_iff_true, if_true,
          Bool.false_eq_true, if_false, ih]
      · have e1 : (decide (p ≤ a.1)) = false := by simpa using hp
        simp only [List.filter_cons, e1, e2, Bool.false_eq_true, if_false, ih]

theorem allMatches_span (m : List Char → Option Nat)
    (hb : ∀ l k, m l = some k → 1 ≤ k ∧ k ≤ l.length) (doc : List Char) :
    ∀ x ∈ allMatches m doc, x.1 < x.2 ∧ x.1 < doc.length ∧
      x.2 ≤ doc.length := by
  intro x hx
  obtain ⟨s, e⟩ := x
  rw [allMatches_mem] at hx
  obtain ⟨hs, k, hm, he⟩ := hx
  have hbk := hb _ _ hm
  have hdl : (doc.drop s).length = doc.length - s := by simp
  refine ⟨by omega, hs, by omega⟩

theorem filter_ge_eq_cons (p q : Nat) :
    ∀ (am : List (Nat × Nat)),
      am.Pairwise (fun x y => x.2 ≤ y.1) →
      (∀ x ∈ am, x.1 < x.2) →
      (p, q) ∈ am →
      am.filter (fun se => decide (p ≤ se.1)) =
        (p, q) :: am.filter (fun se => decide (q ≤ se.1))
  | [], _, _, hmem => absurd hmem (by simp)
  | a :: rest, hp, hlt, hmem => by
    rw [List.pairwise_cons] at hp
    rcases List.mem_cons.mp hmem with heq | hr
    · subst heq
      have hpq : p < q := by simpa using hlt (p, q) (by simp)
      have h1 : ((p, q) :: rest).filter (fun se => decide (p ≤ se.1)) =
          (p, q) :: rest.filter (fun se => decide (p ≤ se.1)) := by
        simp [List.filter_cons]
      rw [h1]
      have h2 : ((p, q) :: rest).filter (fun se => decide (q ≤ se.1)) =
          rest.filter (fun se => decide (q ≤ se.1)) := by
        have : ¬ (q ≤ p) := by omega
        simp [List.filter_cons, this]
      rw [h2]
      have h3 : rest.filter (fun se => decide (p ≤ se.1)) = rest := by
        refine filter_true_mem _ _ ?_
        intro x hx
        have := hp.1 x hx
        simp only [decide_eq_true_eq]
        omega
      have h4 : rest.filter (fun se => decide (q ≤ se.1)) = rest := by
        refine filter_true_mem _ _ ?_
        intro x hx
        have := hp.1 x hx
        simp only [decide_eq_true_eq]
        omega
      rw [h3, h4]
    · have ha2 : a.2 ≤ p := hp.1 _ hr
      have halt : a.1 < a.2 := hlt a (by simp)
      have hpq : p < q := by simpa using hlt (p, q) (by simp [hr])
      have hnp : ¬ (p ≤ a.1) := by omega
      have hnq : ¬ (q ≤ a.1) := by omega
      have ih := filter_ge_eq_cons p q rest hp.2
        (fun x hx => hlt x (by simp [hx])) hr
      simp only [List.filter_cons, decide_eq_true_eq, hnp, hnq, if_false, ih]

theorem gscanGo_eq_filter (m : List Char → Option Nat) (doc : List Char)
    (hb : ∀ l k, m l = some k → 1 ≤ k ∧ k ≤ l.length)
    (hdis : (allMatches m doc).Pairwise (fun x y => x.2 ≤ y.1)) :
    ∀ (fuel p : Nat), doc.length + 1 ≤ fuel + p →
      gscanGo m doc fuel p =
        (allMatches m doc).filter (fun se => decide (p ≤ se.1))
  | 0, p, hfuel => by
    have hfp : doc.length < p := by omega
    rw [show gscanGo m doc 0 p = [] from rfl]
    refine (filter_false_mem _ _ ?_).symm
    intro x hx
    have := (allMatches_span m hb doc x hx).2.1
    simp only [decide_eq_false_iff_not]
    omega
  | fuel+1, p, hfuel => by
    by_cases hp : p < doc.length
    · cases hm : m (doc.drop p) with
      | some k =>
        have hk := hb _ _ hm
        have hmax : max k 1 = k := Nat.max_eq_left hk.1
        have h0 : gscanGo m doc (fuel+1) p =
            (p, p + k) :: gscanGo m doc fuel (p + max k 1) := by
          rw [show gscanGo m doc (fuel+1) p =
            (if p < doc.length then
              match m (doc.drop p) with
              | some len => (p, p + len) :: gscanGo m doc fuel (p + max len 1)
              | none => gscanGo m doc fuel (p + 1)
            else []) from rfl, if_pos hp, hm]
        rw [h0, hmax]
        have hmem : (p, p + k) ∈ allMatches m doc :=
          (allMatches_mem m doc p (p + k)).mpr ⟨hp, k, hm, rfl⟩
        have ih := gscanGo_eq_filter m doc hb hdis fuel (p + k) (by omega)
        rw [ih]
        exact (filter_ge_eq_cons p (p + k) (allMatches m doc) hdis
          (fun x hx => (allMatches_span m hb doc x hx).1) hmem).symm
      | none =>
        have hstep : gscanGo m doc (fuel+1) p = gscanGo m doc fuel (p + 1) := by
          rw [show gscanGo m doc (fuel+1) p =
            (if p < doc.length then
              match m (doc.drop p) with
              | some len => (p, p + len) :: gscanGo m doc fuel (p + max len 1)
              | none => gscanGo m doc fuel (p + 1)
            else []) from rfl, if_pos hp, hm]
        rw [hstep]
        have ih := gscanGo_eq_filter m doc hb hdis fuel (p + 1) (by omega)
        rw [ih]
        refine filter_congr_mem _ _ _ ?_
        intro x hx
        obtain ⟨s, e⟩ := x
        have hne : s ≠ p := by
          intro hsp
          subst hsp
          obtain ⟨_, k, hmk, _⟩ := (allMatches_mem m doc s e).mp hx
          rw [hmk] at hm
          exact absurd hm (by simp)
        simp only [decide_eq_decide]
        omega
    · rw [show gscanGo m doc (fuel+1) p =
        (if p < doc.length then
          match m (doc.drop p) with
          | some len => (p, p + len) :: gscanGo m doc fuel (p + max len 1)
          | none => gscanGo m doc fuel (p + 1)
        else []) from rfl, if_neg hp]
      refine (filter_false_mem _ _ ?_).symm
      intro x hx
      have := (allMatches_span m hb doc x hx).2.1
      simp only [decide_eq_false_iff_not]
      omega

theorem gscan_eq_allMatches (m : List Char → Option Nat) (doc : List Char)
    (hb : ∀ l k, m l = some k → 1 ≤ k ∧ k ≤ l.length)
    (hdis : (allMatches m doc).Pairwise (fun x y => x.2 ≤ y.1)) :
    gscan m doc = allMatches m doc := by
  rw [gscan, gscanGo_eq_filter m doc hb hdis (doc.length + 1) 0 (by omega)]
  refine filter_true_mem _ _ ?_
  intro x _
  simp

theorem altScan_nil_right (b : Nat) :
    ∀ (cs : List (Nat × Nat)), altScan b [] cs = true → cs = []
  | [], _ => rfl
  | c :: cs, h => by
    rw [show altScan b [] (c :: cs) = false from rfl] at h
    exact absurd h (by simp)

theorem altScan_cons (b : Nat) (o c : Nat × Nat)
    (os cs : List (Nat × Nat)) (h : altScan b (o :: os) (c :: cs) = true) :
    b ≤ o.1 ∧ o.2 ≤ c.1 ∧ altScan c.2 os cs = true := by
  rw [show altScan b (o :: os) (c :: cs) =
    (decide (b ≤ o.1) && decide (o.2 ≤ c.1) && altScan c.2 os cs)
    from rfl] at h
  simp only [Bool.and_eq_true, decide_eq_true_eq] at h
  exact ⟨h.1.1, h.1.2, h.2⟩

theorem altScan_bound :
    ∀ (b : Nat) (os cs : List (Nat × Nat)), altScan b os cs = true →
      (∀ x ∈ os, x.1 < x.2) → (∀ y ∈ cs, y.1 < y.2) →
      (∀ x ∈ os, b ≤ x.1) ∧ (∀ y ∈ cs, b < y.1)
  | b, [], [], _, _, _ => ⟨by simp, by simp⟩
  | b, [], c :: cs, h, _, _ => by
    rw [show altScan b [] (c :: cs) = false from rfl] at h
    exact absurd h (by simp)
  | b, o :: os, [], h, _, _ => by
    rw [show altScan b (o :: os) [] = false from rfl] at h
    exact absurd h (by simp)
  | b, o :: os, c :: cs, h, ho, hc => by
    obtain ⟨h1, h2, h3⟩ := altScan_cons b o c os cs h
    have ih := altScan_bound c.2 os cs h3
      (fun x hx => ho x (List.mem_cons_of_mem _ hx))
      (fun y hy => hc y (List.mem_cons_of_mem _ hy))
    have hoo : o.1 < o.2 := ho o (by simp)
    have hcc : c.1 < c.2 := hc c (by simp)
    constructor
    · intro x hx
      rcases List.mem_cons.mp hx with rfl | hx2
      · exact h1
      · have := ih.1 x hx2
        omega
    · intro y hy
      rcases List.mem_cons.mp hy with rfl | hy2
      · omega
      · have := ih.2 y hy2
        omega

theorem firstMatchFrom_eq (m : List Char → Option Nat) (doc : List Char) :
    ∀ (fuel p t k : Nat), doc.length + 1 ≤ fuel + p →
      p ≤ t → t < doc.length → m (doc.drop t) = some k →
      (∀ r, p ≤ r → r < t → m (doc.drop r) = none) →
      firstMatchFrom m doc fuel p = some (t, t + k)
  | 0, p, t, k, hfuel, hpt, ht, hm, hnone =>
    absurd ht (by omega)
  | fuel+1, p, t, k, hfuel, hpt, ht, hm, hnone => by
    have hp : p < doc.length := by omega
    by_cases hpt2 : p = t
    · subst hpt2
      rw [show firstMatchFrom m doc (fuel+1) p =
        (if p < doc.length then
          match m (doc.drop p) with
          | some len => some (p, p + len)
          | none => firstMatchFrom m doc fuel (p + 1)
        else none) from rfl, if_pos hp, hm]
    · have hne := hnone p (le_refl p) (by omega)
      rw [show firstMatchFrom m doc (fuel+1) p =
        (if p < doc.length then
          match m (doc.drop p) with
          | some len => some (p, p + len)
          | none => firstMatchFrom m doc fuel (p + 1)
        else none) from rfl, if_pos hp, hne]
      exact firstMatchFrom_eq m doc fuel (p+1) t k (by omega) (by omega) ht hm
        (fun r hr1 hr2 => hnone r (by omega) hr2)

theorem findBlocksGo_eq (doc : List Char) :
    ∀ (fuel p : Nat) (os cs : List (Nat × Nat)),
      doc.length + 1 ≤ fuel + p →
      (allMatches openPicMatch doc).filter (fun se => decide (p ≤ se.1)) = os →
      (allMatches closePicMatch doc).filter (fun se => decide (p ≤ se.1)) = cs →
      altScan p os cs = true →
      findBlocksGo doc fuel p = List.zipWith (fun o c => (o.1, c.2)) os cs
  | 0, p, os, cs, hfuel, hos, hcs, halt => by
    have hos0 : os = [] := by
      rw [← hos]
      refine filter_false_mem _ _ ?_
      intro x hx
      have := (allMatches_span openPicMatch openPicMatch_bound doc x hx).2.1
      simp only [decide_eq_false_iff_not]
      omega
    rw [hos0]
    rfl
  | fuel+1, p, os, cs, hfuel, hos, hcs, halt => by
    by_cases hp : p < doc.length
    · cases hm : openPicMatch (doc.drop p) with
      | none =>
        have hstep : findBlocksGo doc (fuel+1) p =
            findBlocksGo doc fuel (p + 1) := by
          rw [show findBlocksGo doc (fuel+1) p =
            (if p < doc.length then
              match openPicMatch (doc.drop p) with
              | some olen =>
                match firstMatchFrom closePicMatch doc (doc.length + 1)
                    (p + olen) with
                | some c => (p, c.2) :: findBlocksGo doc fuel c.2
                | none => findBlocksGo doc fuel (p + 1)
              | none => findBlocksGo doc fuel (p + 1)
            else []) from rfl, if_pos hp, hm]
        have hosS : (allMatches openPicMatch doc).filter
            (fun se => decide (p + 1 ≤ se.1)) = os := by
          rw [← hos]
          refine filter_congr_mem _ _ _ ?_
          intro x hx
          obtain ⟨s, e⟩ := x
          have hxm := (allMatches_mem _ _ s e).mp hx
          have hne : s ≠ p := by
            intro hsp
            subst hsp
            obtain ⟨_, k2, hk2, _⟩ := hxm
            rw [hk2] at hm
            exact absurd hm (by simp)
          simp only [decide_eq_decide]
          omega
        have hcnotp : ∀ y ∈ allMatches closePicMatch doc, y.1 ≠ p := by
          intro y hy hyp
          have hyf : y ∈ cs := by
            rw [← hcs, List.mem_filter]
            exact ⟨hy, by simp [hyp]⟩
          cases os with
          | nil =>
            have := altScan_nil_right p cs halt
            rw [this] at hyf
            exact absurd hyf (by simp)
          | cons o os2 =>
            cases cs with
            | nil => exact absurd hyf (by simp)
            | cons c cs2 =>
              have hltc : ∀ z ∈ c :: cs2, z.1 < z.2 := by
                intro z hz
                have hzam : z ∈ allMatches closePicMatch doc := by
                  have : z ∈ (allMatches closePicMatch doc).filter
                      (fun se => decide (p ≤ se.1)) := by rw [hcs]; exact hz
                  exact (List.mem_filter.mp this).1
                exact (allMatches_span closePicMatch closePicMatch_bound
                  doc z hzam).1
              have hlto : ∀ z ∈ o :: os2, z.1 < z.2 := by
                intro z hz
                have hzam : z ∈ allMatches openPicMatch doc := by
                  have : z ∈ (allMatches openPicMatch doc).filter
                      (fun se => decide (p ≤ se.1)) := by rw [hos]; exact hz
                  exact (List.mem_filter.mp this).1
                exact (allMatches_span openPicMatch openPicMatch_bound
                  doc z hzam).1
              have hbnd := altScan_bound p (o :: os2) (c :: cs2) halt hlto hltc
              have := hbnd.2 y hyf
              omega
        have hcsS : (allMatches closePicMatch doc).filter
            (fun se => decide (p + 1 ≤ se.1)) = cs := by
          rw [← hcs]
          refine filter_congr_mem _ _ _ ?_
          intro y hy
          have := hcnotp y hy
          simp only [decide_eq_decide]
          omega
        have haltS : altScan (p + 1) os cs = true := by
          cases os with
          | nil =>
            have := altScan_nil_right p cs halt
            rw [this]
            rfl
          | cons o os2 =>
            cases cs with
            | nil =>
              rw [show altScan p (o :: os2) [] = false from rfl] at halt
              exact absurd halt (by simp)
            | cons c cs2 =>
              obtain ⟨h1, h2, h3⟩ := altScan_cons p o c os2 cs2 halt
              have honotp : o.1 ≠ p := by
                intro hop
                have hoam : o ∈ allMatches openPicMatch doc := by
                  have : o ∈ (allMatches openPicMatch doc).filter
                      (fun se => decide (p ≤ se.1)) := by rw [hos]; simp
                  exact (List.mem_filter.mp this).1
                obtain ⟨s, e⟩ := o
                obtain ⟨_, k2, hk2, _⟩ := (allMatches_mem _ _ s e).mp hoam
                simp only at hop
                rw [hop] at hk2
                rw [hk2] at hm
                exact absurd hm (by simp)
              rw [show altScan (p + 1) (o :: os2) (c :: cs2) =
                (decide (p + 1 ≤ o.1) && decide (o.2 ≤ c.1) &&
                  altScan c.2 os2 cs2) from rfl]
              have e1 : (decide (p + 1 ≤ o.1)) = true := by
                simp only [decide_eq_true_eq]
                omega
              have e2 : (decide (o.2 ≤ c.1)) = true := by
                simp only [decide_eq_true_eq]
                omega
              rw [e1, e2, h3]
              rfl
        rw [hstep]
        exact findBlocksGo_eq doc fuel (p + 1) os cs (by omega) hosS hcsS haltS
      | some olen =>
        have hmem : (p, p + olen) ∈ allMatches openPicMatch doc :=
          (allMatches_mem _ _ p (p + olen)).mpr ⟨hp, olen, hm, rfl⟩
        have hmemf : (p, p + olen) ∈ os := by
          rw [← hos, List.mem_filter]
          exact ⟨hmem, by simp⟩
        cases os with
        | nil => exact absurd hmemf (by simp)
        | cons o os2 =>
          cases cs with
          | nil =>
            rw [show altScan p (o :: os2) [] = false from rfl] at halt
            exact absurd halt (by simp)
          | cons c cs2 =>
            obtain ⟨h1, h2, h3⟩ := altScan_cons p o c os2 cs2 halt
            have hsubo : ∀ z ∈ o :: os2, z ∈ allMatches openPicMatch doc := by
              intro z hz
              have : z ∈ (allMatches openPicMatch doc).filter
                  (fun se => decide (p ≤ se.1)) := by rw [hos]; exact hz
              exact (List.mem_filter.mp this).1
            have hsubc : ∀ z ∈ c :: cs2, z ∈ allMatches closePicMatch doc := by
              intro z hz
              have : z ∈ (allMatches closePicMatch doc).filter
                  (fun se => decide (p ≤ se.1)) := by rw [hcs]; exact hz
              exact (List.mem_filter.mp this).1
            have hlto : ∀ z ∈ o :: os2, z.1 < z.2 := fun z hz =>
              (allMatches_span openPicMatch openPicMatch_bound doc z
                (hsubo z hz)).1
            have hltc : ∀ z ∈ c :: cs2, z.1 < z.2 := fun z hz =>
              (allMatches_span closePicMatch closePicMatch_bound doc z
                (hsubc z hz)).1
            have hoo : o.1 < o.2 := hlto o (by simp)
            have hcc : c.1 < c.2 := hltc c (by simp)
            have ho_eq : o = (p, p + olen) := by
              rcases List.mem_cons.mp hmemf with heq | hin
              · exact heq.symm
              · exfalso
                have hb2 := altScan_bound c.2 os2 cs2 h3
                  (fun z hz => hlto z (List.mem_cons_of_mem _ hz))
                  (fun z hz => hltc z (List.mem_cons_of_mem _ hz))
                have := hb2.1 (p, p + olen) hin
                simp only at this
                omega
            have hc_am : c ∈ allMatches closePicMatch doc := hsubc c (by simp)
            have hcmem := (allMatches_mem closePicMatch doc c.1 c.2).mp hc_am
            obtain ⟨hc1lt, kc, hkc, hc2⟩ := hcmem
            have hfm : firstMatchFrom closePicMatch doc (doc.length + 1)
                (p + olen) = some (c.1, c.2) := by
              have ho2 : o.2 = p + olen := by rw [ho_eq]
              have hfm0 := firstMatchFrom_eq closePicMatch doc
                (doc.length + 1) (p + olen) c.1 kc
                (by omega) (by omega) hc1lt hkc ?_
              · rw [hfm0, hc2]
              · intro r hr1 hr2
                cases hmc : closePicMatch (doc.drop r) with
                | none => rfl
                | some kr =>
                  exfalso
                  have hrm : (r, r + kr) ∈ allMatches closePicMatch doc := by
                    rw [allMatches_mem]
                    refine ⟨by omega, kr, hmc, rfl⟩
                  have hrf : (r, r + kr) ∈ c :: cs2 := by
                    rw [← hcs, List.mem_filter]
                    refine ⟨hrm, by simp only [decide_eq_true_eq]; omega⟩
                  rcases List.mem_cons.mp hrf with heq | hin
                  · have : r = c.1 := by
                      rw [← heq]
                    omega
                  · have hb2 := altScan_bound c.2 os2 cs2 h3
                      (fun z hz => hlto z (List.mem_cons_of_mem _ hz))
                      (fun z hz => hltc z (List.mem_cons_of_mem _ hz))
                    have := hb2.2 (r, r + kr) hin
                    simp only at this
                    omega
            have hstep1 : findBlocksGo doc (fuel+1) p =
                (match firstMatchFrom closePicMatch doc (doc.length + 1)
                    (p + olen) with
                | some cp => (p, cp.2) :: findBlocksGo doc fuel cp.2
                | none => findBlocksGo doc fuel (p + 1)) := by
              rw [show findBlocksGo doc (fuel+1) p =
                (if p < doc.length then
                  match openPicMatch (doc.drop p) with
                  | some olen =>
                    match firstMatchFrom closePicMatch doc (doc.length + 1)
                        (p + olen) with
                    | some cp => (p, cp.2) :: findBlocksGo doc fuel cp.2
                    | none => findBlocksGo doc fuel (p + 1)
                  | none => findBlocksGo doc fuel (p + 1)
                else []) from rfl, if_pos hp, hm]
            have hstep : findBlocksGo doc (fuel+1) p =
                (p, c.2) :: findBlocksGo doc fuel c.2 := by
              rw [hstep1, hfm]
            have hb2 := altScan_bound c.2 os2 cs2 h3
              (fun z hz => hlto z (List.mem_cons_of_mem _ hz))
              (fun z hz => hltc z (List.mem_cons_of_mem _ hz))
            have hof : (allMatches openPicMatch doc).filter
                (fun se => decide (c.2 ≤ se.1)) = os2 := by
              have h5 := filter_filter_ge (allMatches openPicMatch doc) p c.2
                (by omega)
              rw [hos] at h5
              rw [← h5]
              have hdrop : ¬ (c.2 ≤ o.1) := by omega
              have e0 : (decide (c.2 ≤ o.1)) = false := by
                simpa using hdrop
              rw [List.filter_cons]
              rw [e0]
              simp only [Bool.false_eq_true, if_false]
              refine filter_true_mem _ _ ?_
              intro z hz
              have := hb2.1 z hz
              simpa using this
            have hcf : (allMatches closePicMatch doc).filter
                (fun se => decide (c.2 ≤ se.1)) = cs2 := by
              have h5 := filter_filter_ge (allMatches closePicMatch doc) p c.2
                (by omega)
              rw [hcs] at h5
              rw [← h5]
              have hdrop : ¬ (c.2 ≤ c.1) := by omega
              have e0 : (decide (c.2 ≤ c.1)) = false := by
                simpa using hdrop
              rw [List.filter_cons]
              rw [e0]
              simp only [Bool.false_eq_true, if_false]
              refine filter_true_mem _ _ ?_
              intro z hz
              have := hb2.2 z hz
              simp only [decide_eq_true_eq]
              omega
            rw [hstep]
            have ih := findBlocksGo_eq doc fuel c.2 os2 cs2 (by omega) hof
              hcf h3
            rw [ih]
            rw [show List.zipWith (fun o2 c2 => (o2.1, c2.2)) (o :: os2)
              (c :: cs2) = (o.1, c.2) ::
                List.zipWith (fun o2 c2 => (o2.1, c2.2)) os2 cs2 from rfl]
            rw [ho_eq]
    · have hos0 : os = [] := by
        rw [← hos]
        refine filter_false_mem _ _ ?_
        intro x hx
        have := (allMatches_span openPicMatch openPicMatch_bound doc x hx).2.1
        simp only [decide_eq_false_iff_not]
        omega
      rw [hos0]
      rw [show findBlocksGo doc (fuel+1) p =
        (if p < doc.length then
          match openPicMatch (doc.drop p) with
          | some olen =>
            match firstMatchFrom closePicMatch doc (doc.length + 1)
                (p + olen) with
            | some cp => (p, cp.2) :: findBlocksGo doc fuel cp.2
            | none => findBlocksGo doc fuel (p + 1)
          | none => findBlocksGo doc fuel (p + 1)
        else []) from rfl, if_neg hp]
      rfl

theorem chainDisjB_pairwise :
    ∀ (l : List (Nat × Nat)), chainDisjB l = true →
      (∀ x ∈ l, x.1 < x.2) →
      l.Pairwise (fun x y => x.2 ≤ y.1)
  | [], _, _ => List.Pairwise.nil
  | [a], _, _ => by simp
  | a :: b :: rest, h, hm => by
    rw [show chainDisjB (a :: b :: rest) =
      (decide (a.2 ≤ b.1) && chainDisjB (b :: rest)) from rfl] at h
    simp only [Bool.and_eq_true, decide_eq_true_eq] at h
    have ih := chainDisjB_pairwise (b :: rest) h.2
      (fun x hx => hm x (List.mem_cons_of_mem _ hx))
    refine List.Pairwise.cons ?_ ih
    intro y hy
    rw [List.pairwise_cons] at ih
    have hbb : b.1 < b.2 := hm b (by simp)
    rcases List.mem_cons.mp hy with rfl | hy2
    · exact h.1
    · have := ih.1 y hy2
      omega

theorem altScan_pairwise :
    ∀ (b : Nat) (os cs : List (Nat × Nat)), altScan b os cs = true →
      (∀ x ∈ os, x.1 < x.2) → (∀ y ∈ cs, y.1 < y.2) →
      os.Pairwise (fun x y => x.2 ≤ y.1) ∧
        cs.Pairwise (fun x y => x.2 ≤ y.1)
  | b, [], [], _, _, _ => ⟨List.Pairwise.nil, List.Pairwise.nil⟩
  | b, [], c :: cs, h, _, _ => by
    rw [show altScan b [] (c :: cs) = false from rfl] at h
    exact absurd h (by simp)
  | b, o :: os, [], h, _, _ => by
    rw [show altScan b (o :: os) [] = false from rfl] at h
    exact absurd h (by simp)
  | b, o :: os, c :: cs, h, ho, hc => by
    obtain ⟨h1, h2, h3⟩ := altScan_cons b o c os cs h
    have hto := fun z hz => ho z (List.mem_cons_of_mem _ hz)
    have htc := fun z hz => hc z (List.mem_cons_of_mem _ hz)
    have ih := altScan_pairwise c.2 os cs h3 hto htc
    have hbnd := altScan_bound c.2 os cs h3 hto htc
    have hcc : c.1 < c.2 := hc c (by simp)
    constructor
    · refine List.Pairwise.cons ?_ ih.1
      intro z hz
      have := hbnd.1 z hz
      omega
    · refine List.Pairwise.cons ?_ ih.2
      intro z hz
      have := hbnd.2 z hz
      omega

theorem mem_zipWith_pairs :
    ∀ (os cs : List (Nat × Nat)) (z : Nat × Nat),
      z ∈ List.zipWith (fun o c => (o.1, c.2)) os cs →
      ∃ o c, (o, c) ∈ List.zip os cs ∧ z = (o.1, c.2)
  | [], _, z, h => absurd h (by simp)
  | o :: os, [], z, h => absurd h (by simp)
  | o :: os, c :: cs, z, h => by
    rw [List.zipWith_cons_cons] at h
    rcases List.mem_cons.mp h with heq | hin
    · exact ⟨o, c, by simp [List.zip_cons_cons], heq⟩
    · obtain ⟨o2, c2, hz, he⟩ := mem_zipWith_pairs os cs z hin
      refine ⟨o2, c2, ?_, he⟩
      rw [List.zip_cons_cons]
      exact List.mem_cons_of_mem _ hz

theorem zip_mem_zipWith :
    ∀ (os cs : List (Nat × Nat)) (o c : Nat × Nat),
      (o, c) ∈ List.zip os cs →
      (o.1, c.2) ∈ List.zipWith (fun o2 c2 => (o2.1, c2.2)) os cs
  | [], _, o, c, h => absurd h (by simp)
  | _ :: _, [], o, c, h => absurd h (by simp)
  | a :: os, d :: cs, o, c, h => by
    rw [List.zip_cons_cons] at h
    rw [List.zipWith_cons_cons]
    rcases List.mem_cons.mp h with heq | hin
    · have h1 : o = a := congrArg Prod.fst heq
      have h2 : c = d := congrArg Prod.snd heq
      rw [h1, h2]
      exact List.mem_cons_self _ _
    · exact List.mem_cons_of_mem _ (zip_mem_zipWith os cs o c hin)

theorem zipWith_blocks_pairwise :
    ∀ (b : Nat) (os cs : List (Nat × Nat)),
      altScan b os cs = true →
      (∀ x ∈ os, x.1 < x.2) → (∀ y ∈ cs, y.1 < y.2) →
      (List.zipWith (fun o c => (o.1, c.2)) os cs).Pairwise
        (fun x y => x.2 ≤ y.1)
  | b, [], [], _, _, _ => by simp
  | b, [], c :: cs, h, _, _ => by
    rw [show altScan b [] (c :: cs) = false from rfl] at h
    exact absurd h (by simp)
  | b, o :: os, [], h, _, _ => by
    rw [show altScan b (o :: os) [] = false from rfl] at h
    exact absurd h (by simp)
  | b, o :: os, c :: cs, h, ho, hc => by
    obtain ⟨h1, h2, h3⟩ := altScan_cons b o c os cs h
    have hto := fun z hz => ho z (List.mem_cons_of_mem _ hz)
    have htc := fun z hz => hc z (List.mem_cons_of_mem _ hz)
    have ih := zipWith_blocks_pairwise c.2 os cs h3 hto htc
    have hbnd := altScan_bound c.2 os cs h3 hto htc
    rw [List.zipWith_cons_cons]
    refine List.Pairwise.cons ?_ ih
    intro z hz
    obtain ⟨o2, c2, hzz, he⟩ := mem_zipWith_pairs os cs z hz
    have ho2 := hbnd.1 o2 (List.of_mem_zip hzz).1
    rw [he]
    simpa using ho2

theorem counts_eq_outside :
    ∀ (b : Nat) (os cs : List (Nat × Nat)) (s : Nat),
      altScan b os cs = true →
      (∀ x ∈ os, x.1 < x.2) → (∀ y ∈ cs, y.1 < y.2) →
      (∀ oc ∈ List.zip os cs, s < oc.1.1 ∨ oc.2.2 ≤ s) →
      (os.filter (fun x => decide (x.2 ≤ s))).length =
        (cs.filter (fun y => decide (y.2 ≤ s))).length
  | b, [], [], s, _, _, _, _ => rfl
  | b, [], c :: cs, s, h, _, _, _ => by
    rw [show altScan b [] (c :: cs) = false from rfl] at h
    exact absurd h (by simp)
  | b, o :: os, [], s, h, _, _, _ => by
    rw [show altScan b (o :: os) [] = false from rfl] at h
    exact absurd h (by simp)
  | b, o :: os, c :: cs, s, h, ho, hc, hpairs => by
    obtain ⟨h1, h2, h3⟩ := altScan_cons b o c os cs h
    have hoo : o.1 < o.2 := ho o (by simp)
    have hcc : c.1 < c.2 := hc c (by simp)
    have hto := fun z hz => ho z (List.mem_cons_of_mem _ hz)
    have htc := fun z hz => hc z (List.mem_cons_of_mem _ hz)
    have ih := counts_eq_outside c.2 os cs s h3 hto htc
      (fun oc hoc => hpairs oc (by
        rw [List.zip_cons_cons]
        exact List.mem_cons_of_mem _ hoc))
    rcases hpairs (o, c) (by rw [List.zip_cons_cons]; simp) with hlt | hge
    · simp only at hlt
      have eo : (decide (o.2 ≤ s)) = false := by
        simp only [decide_eq_false_iff_not]
        omega
      have ec : (decide (c.2 ≤ s)) = false := by
        simp only [decide_eq_false_iff_not]
        omega
      simp only [List.filter_cons, eo, ec, Bool.false_eq_true, if_false]
      exact ih
    · simp only at hge
      have eo : (decide (o.2 ≤ s)) = true := by
        simp only [decide_eq_true_eq]
        omega
      have ec : (decide (c.2 ≤ s)) = true := by
        simp only [decide_eq_true_eq]
        omega
      simp only [List.filter_cons, eo, ec, if_true, List.length_cons, ih]

theorem counts_ne_inside :
    ∀ (b : Nat) (os cs : List (Nat × Nat)) (s : Nat) (o0 c0 : Nat × Nat),
      altScan b os cs = true →
      (∀ x ∈ os, x.1 < x.2) → (∀ y ∈ cs, y.1 < y.2) →
      (o0, c0) ∈ List.zip os cs →
      o0.2 ≤ s → s < c0.1 →
      (os.filter (fun x => decide (x.2 ≤ s))).length =
        (cs.filter (fun y => decide (y.2 ≤ s))).length + 1
  | b, [], [], s, o0, c0, _, _, _, hmem, _, _ => absurd hmem (by simp)
  | b, [], c :: cs, s, o0, c0, h, _, _, _, _, _ => by
    rw [show altScan b [] (c :: cs) = false from rfl] at h
    exact absurd h (by simp)
  | b, o :: os, [], s, o0, c0, h, _, _, _, _, _ => by
    rw [show altScan b (o :: os) [] = false from rfl] at h
    exact absurd h (by simp)
  | b, o :: os, c :: cs, s, o0, c0, h, ho, hc, hmem, hos, hsc => by
    obtain ⟨h1, h2, h3⟩ := altScan_cons b o c os cs h
    have hoo : o.1 < o.2 := ho o (by simp)
    have hcc : c.1 < c.2 := hc c (by simp)
    have hto := fun z hz => ho z (List.mem_cons_of_mem _ hz)
    have htc := fun z hz => hc z (List.mem_cons_of_mem _ hz)
    have hbnd := altScan_bound c.2 os cs h3 hto htc
    rw [List.zip_cons_cons] at hmem
    rcases List.mem_cons.mp hmem with heq | hin
    · have he1 : o0 = o := congrArg Prod.fst heq
      have he2 : c0 = c := congrArg Prod.snd heq
      rw [he1] at hos
      rw [he2] at hsc
      have eo : (decide (o.2 ≤ s)) = true := by
        simp only [decide_eq_true_eq]
        omega
      have ec : (decide (c.2 ≤ s)) = false := by
        simp only [decide_eq_false_iff_not]
        omega
      have hros : os.filter (fun x => decide (x.2 ≤ s)) = [] := by
        refine filter_false_mem _ _ ?_
        intro z hz
        have hb1 := hbnd.1 z hz
        have hb2 := hto z hz
        simp only [decide_eq_false_iff_not]
        omega
      have hrcs : cs.filter (fun y => decide (y.2 ≤ s)) = [] := by
        refine filter_false_mem _ _ ?_
        intro z hz
        have hb1 := hbnd.2 z hz
        have hb2 := htc z hz
        simp only [decide_eq_false_iff_not]
        omega
      simp only [List.filter_cons, eo, ec, if_true, Bool.false_eq_true,
        if_false, hros, hrcs, List.length_cons, List.length_nil]
    · have ho0 : o0 ∈ os := (List.of_mem_zip hin).1
      have hb1 := hbnd.1 o0 ho0
      have hb2 := hto o0 ho0
      have eo : (decide (o.2 ≤ s)) = true := by
        simp only [decide_eq_true_eq]
        omega
      have ec : (decide (c.2 ≤ s)) = true := by
        simp only [decide_eq_true_eq]
        omega
      have ih := counts_ne_inside c.2 os cs s o0 c0 h3 hto htc hin hos hsc
      simp only [List.filter_cons, eo, ec, if_true, List.length_cons]
      omega

theorem disjointFrom_spec (xs ys : List (Nat × Nat))
    (h : disjointFrom xs ys = true) :
    ∀ x ∈ xs, ∀ y ∈ ys, x.2 ≤ y.1 ∨ y.2 ≤ x.1 := by
  intro x hx y hy
  rw [disjointFrom, List.all_eq_true] at h
  have h2 := h x hx
  rw [List.all_eq_true] at h2
  have h3 := h2 y hy
  simpa using h3

theorem gscan_take_length (m : List Char → Option Nat)
    (hb : ∀ l k, m l = some k → 1 ≤ k ∧ k ≤ l.length)
    (hext : ∀ l ext k, m l = some k → m (l ++ ext) = some k)
    (hres : ∀ l ext k, m (l ++ ext) = some k → k ≤ l.length → m l = some k)
    (doc : List Char) (s : Nat) (hs : s ≤ doc.length)
    (hdis : (allMatches m doc).Pairwise (fun x y => x.2 ≤ y.1)) :
    gscan m (doc.take s) =
      (allMatches m doc).filter (fun se => decide (se.2 ≤ s)) := by
  have ht := allMatches_take m (fun l k h2 => (hb l k h2).1)
    (fun l k h2 => (hb l k h2).2) hext hres doc s hs
  have hdis2 : (allMatches m (doc.take s)).Pairwise
      (fun x y => x.2 ≤ y.1) := by
    rw [ht]
    exact hdis.filter _
  rw [gscan_eq_allMatches m (doc.take s) hb hdis2, ht]

/-- C2: counterexample.  On the document consisting of a stray close tag
followed by a complete picture block, findPictureBlocks pairs the open tag
at 10 with the second close tag and reports the block (10, 40), while the
image tag spanning (19, 30) inside that block has one open and one close
tag before it, so equal counts classify it as standalone: the standalone
region (19, 30) overlaps the picture block region (10, 40), and the image
nested inside the located block is not excluded. -/
theorem C2_counterexample :
    findPictureBlocks (str ("</picture><picture><img src=a></picture>")) =
      [(10, 40)] ∧
    findStandaloneImages
      (str ("</picture><picture><img src=a></picture>")) = [(19, 30)] ∧
    (10 < 30 ∧ 19 < 40) ∧
    wellFormedPic (str ("</picture><picture><img src=a></picture>")) =
      false :=
  ⟨by decide, by decide, by decide, by decide⟩

/-- C2 (amended): on a well-formed document - picture open and close tag
occurrences alternate in order with non-overlapping spans, and image tag
occurrences overlap neither each other nor any picture tag - the block
scanner returns exactly the in-order pairing of the open tags with the
close tags, the blocks are ascending and pairwise non-overlapping, the
standalone image list is ascending and pairwise non-overlapping, and an
image tag occurrence is classified standalone exactly when its span is
disjoint from every returned picture block, so every image inside a
located picture block is excluded. -/
theorem C2_region_partition (doc : List Char)
    (hwf : wellFormedPic doc = true) :
    findPictureBlocks doc =
      List.zipWith (fun o c => (o.1, c.2))
        (allMatches openPicMatch doc) (allMatches closePicMatch doc) ∧
    (findPictureBlocks doc).Pairwise (fun x y => x.2 ≤ y.1) ∧
    (findStandaloneImages doc).Pairwise (fun x y => x.2 ≤ y.1) ∧
    (∀ se ∈ allMatches imgMatch doc,
      (se ∈ findStandaloneImages doc ↔
        ∀ bl ∈ findPictureBlocks doc, se.2 ≤ bl.1 ∨ bl.2 ≤ se.1)) := by
  rw [wellFormedPic] at hwf
  simp only [Bool.and_eq_true] at hwf
  obtain ⟨⟨halt, hchain⟩, hdisj⟩ := hwf
  have hlto : ∀ x ∈ allMatches openPicMatch doc, x.1 < x.2 :=
    fun x hx => (allMatches_span _ openPicMatch_bound doc x hx).1
  have hltc : ∀ y ∈ allMatches closePicMatch doc, y.1 < y.2 :=
    fun y hy => (allMatches_span _ closePicMatch_bound doc y hy).1
  have hlti : ∀ z ∈ allMatches imgMatch doc, z.1 < z.2 :=
    fun z hz => (allMatches_span _ imgMatch_bound doc z hz).1
  have ha : findPictureBlocks doc =
      List.zipWith (fun o c => (o.1, c.2))
        (allMatches openPicMatch doc) (allMatches closePicMatch doc) := by
    rw [findPictureBlocks]
    refine findBlocksGo_eq doc (doc.length + 1) 0 _ _ (by omega) ?_ ?_ halt
    · exact filter_true_mem _ _ (fun x _ => by simp)
    · exact filter_true_mem _ _ (fun x _ => by simp)
  have hb := zipWith_blocks_pairwise 0 _ _ halt hlto hltc
  have hgimg : gscan imgMatch doc = allMatches imgMatch doc :=
    gscan_eq_allMatches _ _ imgMatch_bound (chainDisjB_pairwise _ hchain hlti)
  have hstand : findStandaloneImages doc =
      (allMatches imgMatch doc).filter
        (fun se => openCountBefore doc se.1 == closeCountBefore doc se.1) := by
    rw [findStandaloneImages, hgimg]
  have hdis_o := (altScan_pairwise 0 _ _ halt hlto hltc).1
  have hdis_c := (altScan_pairwise 0 _ _ halt hlto hltc).2
  refine ⟨ha, ?_, ?_, ?_⟩
  · rw [ha]
    exact hb
  · rw [hstand]
    exact (chainDisjB_pairwise _ hchain hlti).filter _
  · intro se hse
    obtain ⟨s, e⟩ := se
    have hspan := allMatches_span _ imgMatch_bound doc (s, e) hse
    have hse2 : s < e := hspan.1
    have hsl : s < doc.length := hspan.2.1
    have hoc : openCountBefore doc s =
        ((allMatches openPicMatch doc).filter
          (fun x => decide (x.2 ≤ s))).length := by
      rw [openCountBefore, gscan_take_length openPicMatch openPicMatch_bound
        openPicMatch_ext openPicMatch_restrict doc s (by omega) hdis_o]
    have hcc2 : closeCountBefore doc s =
        ((allMatches closePicMatch doc).filter
          (fun y => decide (y.2 ≤ s))).length := by
      rw [closeCountBefore, gscan_take_length closePicMatch
        closePicMatch_bound closePicMatch_ext closePicMatch_restrict
        doc s (by omega) hdis_c]
    have hmemiff : (s, e) ∈ findStandaloneImages doc ↔
        openCountBefore doc s = closeCountBefore doc s := by
      rw [hstand, List.mem_filter]
      constructor
      · intro h
        have h2 := h.2
        simpa using h2
      · intro h
        exact ⟨hse, by simpa using h⟩
    rw [hmemiff, hoc, hcc2]
    constructor
    · intro hcount bl hbl
      by_contra hnot
      push_neg at hnot
      obtain ⟨hnl, hns⟩ := hnot
      rw [ha] at hbl
      obtain ⟨o, c, hzip, hble⟩ := mem_zipWith_pairs _ _ bl hbl
      have homem := (List.of_mem_zip hzip).1
      have hcmem := (List.of_mem_zip hzip).2
      rw [hble] at hnl hns
      simp only at hnl hns
      have hdo := disjointFrom_spec _ _ hdisj (s, e) hse o
        (List.mem_append.mpr (Or.inl homem))
      have hdo2 : o.2 ≤ s := by
        rcases hdo with h | h
        · simp only at h
          omega
        · simpa using h
      have hdc := disjointFrom_spec _ _ hdisj (s, e) hse c
        (List.mem_append.mpr (Or.inr hcmem))
      have hsc : s < c.1 := by
        rcases hdc with h | h
        · simp only at h
          omega
        · simp only at h
          omega
      have := counts_ne_inside 0 _ _ s o c halt hlto hltc hzip hdo2 hsc
      omega
    · intro hout
      refine counts_eq_outside 0 _ _ s halt hlto hltc ?_
      intro oc hoc
      have hbl := zip_mem_zipWith _ _ oc.1 oc.2 hoc
      rw [← ha] at hbl
      have h6 := hout (oc.1.1, oc.2.2) hbl
      rcases h6 with h | h
      · left
        simp only at h
        omega
      · right
        simpa using h

/-- C2 witness: the amended theorem applied to a concrete well-formed
document with two picture blocks and one standalone image between them. -/
theorem C2_region_partition_witness :
    wellFormedPic (str ("<p><picture><img src=a></picture><img src=b><picture x><img src=c></picture>")) = true ∧
    findPictureBlocks (str ("<p><picture><img src=a></picture><img src=b><picture x><img src=c></picture>")) =
      List.zipWith (fun o c => (o.1, c.2))
        (allMatches openPicMatch (str ("<p><picture><img src=a></picture><img src=b><picture x><img src=c></picture>")))
        (allMatches closePicMatch (str ("<p><picture><img src=a></picture><img src=b><picture x><img src=c></picture>"))) :=
  ⟨by decide, (C2_region_partition _ (by decide)).1⟩

end TinyTailor
